import Mathlib

/-!
Verification model of roachpulse (`main.go`): the in-memory entity store,
the interner, cache persistence, the two-phase sync orchestrator, and the
closed-PR age aggregation.  Go maps are modelled as association lists with
replace-in-place insertion; Go pointers to entities are modelled by an
`addr` tag (pointer identity) carried next to the data; nil pointers are
`Option.none`; fallible operations return an explicit result type that
distinguishes normal completion, `log.Fatal`, and a nil-pointer panic.
-/

namespace RP

/-- Lookup in the association-list model of a Go `map[int]V`. -/
def mlookup {α : Type} : List (Int × α) → Int → Option α
  | [], _ => none
  | (k, v) :: t, k' => if k' = k then some v else mlookup t k'

/-- Go map assignment `m[k] = v`: replace the binding in place, or append. -/
def minsert {α : Type} : List (Int × α) → Int → α → List (Int × α)
  | [], k, v => [(k, v)]
  | (k', v') :: t, k, v => if k = k' then (k, v) :: t else (k', v') :: minsert t k v

/-- The keys of a map (with multiplicity, in representation order). -/
def mkeys {α : Type} (m : List (Int × α)) : List Int := m.map Prod.fst

/-- A `*github.User` / `*github.Milestone` / `*github.Repository` pointee.
`addr` models the identity of the heap object (two separate fetches of the
same logical entity yield distinct `addr`, and sharing one instance means
equal `addr`); `id` models the result of the nil-safe getter `GetID()`
(`0` when the `ID` field is nil or zero).  The remaining payload fields of
the Go structs are never read by this program and ride along with `addr`. -/
structure Ent where
  addr : Nat
  id : Int
deriving DecidableEq, Repr

/-- Nil-safe `(*u).GetID()` on a possibly-nil entity pointer. -/
def getID : Option Ent → Int
  | none => 0
  | some e => e.id

/-- One `*github.Timeline` event: the entity references interned by
`internIssue` (main.go:299-303). -/
structure TimelineEvent where
  actor : Option Ent
  assignee : Option Ent
  milestone : Option Ent
deriving DecidableEq, Repr

/-- One `*github.RepositoryCommit`: the references interned by
`internIssue` (main.go:305-308). -/
structure Commit where
  author : Option Ent
  committer : Option Ent
deriving DecidableEq, Repr

/-- The `github.Issue` listing record embedded in `Issue` (main.go:100-104).
`number` is the `*int` field `Number` (`none` = nil pointer);
`pullRequestLinks` records whether `PullRequestLinks != nil`;
`createdAt`/`closedAt` are `*time.Time` as unix nanoseconds;
`title` stands for the scalar payload fields the program never reads. -/
structure IssueData where
  number : Option Int
  title : Option String
  user : Option Ent
  assignee : Option Ent
  closedBy : Option Ent
  assignees : List (Option Ent)
  milestone : Option Ent
  repository : Option Ent
  pullRequestLinks : Bool
  createdAt : Option Int
  closedAt : Option Int
deriving DecidableEq, Repr

/-- `Issue` (main.go:100-104): the embedded `github.Issue` plus the
backfilled `Timeline` and `Commits` slices (Go nil slice = `[]`). -/
structure Issue where
  data : IssueData
  timeline : List TimelineEvent
  commits : List Commit
deriving DecidableEq, Repr

/-- `Project` (main.go:111-120): scalar metadata plus the entity store. -/
structure Project where
  owner : String
  repo : String
  refreshedAt : Int
  issues : List (Int × Issue)
  users : List (Int × Ent)
  milestones : List (Int × Ent)
  repos : List (Int × Ent)
deriving DecidableEq, Repr

/-- The interning step shared verbatim by `internUser`, `internMilestone`
and `internRepo` (main.go:259-287): given one of the store's ID maps and a
reference cell `u`, a nil pointer or zero ID leaves the cell untouched; if
the map already holds an entity under that ID the cell is rewritten to the
stored canonical instance; otherwise the given instance is registered. -/
def internEnt (m : List (Int × Ent)) (u : Option Ent) : List (Int × Ent) × Option Ent :=
  match u with
  | none => (m, none)
  | some e =>
    if e.id ≠ 0 then
      match mlookup m e.id with
      | some c => (m, some c)
      | none => (minsert m e.id e, some e)
    else (m, some e)

/-- `Project.internUser` (main.go:259-267). -/
def internUser (p : Project) (u : Option Ent) : Project × Option Ent :=
  let r := internEnt p.users u
  ({ p with users := r.1 }, r.2)

/-- `Project.internMilestone` (main.go:269-277). -/
def internMilestone (p : Project) (u : Option Ent) : Project × Option Ent :=
  let r := internEnt p.milestones u
  ({ p with milestones := r.1 }, r.2)

/-- `Project.internRepo` (main.go:279-287). -/
def internRepo (p : Project) (u : Option Ent) : Project × Option Ent :=
  let r := internEnt p.repos u
  ({ p with repos := r.1 }, r.2)

/-- The `for j := range i.Assignees` loop of `internIssue` (main.go:293-295). -/
def internUsers (p : Project) : List (Option Ent) → Project × List (Option Ent)
  | [] => (p, [])
  | u :: us =>
    let r := internUser p u
    let rs := internUsers r.1 us
    (rs.1, r.2 :: rs.2)

/-- Body of the timeline loop of `internIssue` (main.go:299-303). -/
def internTimelineEvent (p : Project) (t : TimelineEvent) : Project × TimelineEvent :=
  let r1 := internUser p t.actor
  let r2 := internUser r1.1 t.assignee
  let r3 := internMilestone r2.1 t.milestone
  (r3.1, { actor := r1.2, assignee := r2.2, milestone := r3.2 })

/-- The `for _, t := range i.Timeline` loop of `internIssue`. -/
def internTimelineList (p : Project) : List TimelineEvent → Project × List TimelineEvent
  | [] => (p, [])
  | t :: ts =>
    let r := internTimelineEvent p t
    let rs := internTimelineList r.1 ts
    (rs.1, r.2 :: rs.2)

/-- Body of the commits loop of `internIssue` (main.go:305-308). -/
def internCommit (p : Project) (c : Commit) : Project × Commit :=
  let r1 := internUser p c.author
  let r2 := internUser r1.1 c.committer
  (r2.1, { author := r1.2, committer := r2.2 })

/-- The `for _, c := range i.Commits` loop of `internIssue`. -/
def internCommitList (p : Project) : List Commit → Project × List Commit
  | [] => (p, [])
  | c :: cs =>
    let r := internCommit p c
    let rs := internCommitList r.1 cs
    (rs.1, r.2 :: rs.2)

/-- `Project.internIssue` (main.go:289-309), in source order: author,
assignee, closer, assignee list, milestone, repository, then every
timeline event, then every commit. -/
def internIssue (p : Project) (i : Issue) : Project × Issue :=
  let r1 := internUser p i.data.user
  let r2 := internUser r1.1 i.data.assignee
  let r3 := internUser r2.1 i.data.closedBy
  let r4 := internUsers r3.1 i.data.assignees
  let r5 := internMilestone r4.1 i.data.milestone
  let r6 := internRepo r5.1 i.data.repository
  let r7 := internTimelineList r6.1 i.timeline
  let r8 := internCommitList r7.1 i.commits
  let d := { i.data with
             user := r1.2, assignee := r2.2, closedBy := r3.2,
             assignees := r4.2, milestone := r5.2, repository := r6.2 }
  (r8.1, { data := d, timeline := r7.2, commits := r8.2 })

/-- `24 * time.Hour` in nanoseconds. -/
def dayNs : Int := 24 * 3600 * 1000000000

/-- The closed-PR age aggregation of `main` (main.go:367-380): issues
without pull-request linkage or without `ClosedAt` are skipped; otherwise
`age := ClosedAt.Sub(*CreatedAt) / (24*time.Hour)` (Go `int64` division,
which truncates toward zero, is `Int.div`), clamped below at `1`, is
recorded.  `none` models the nil `*i.CreatedAt` dereference panic. -/
def recordAges : List (Int × Issue) → Option (List Int)
  | [] => some []
  | (_, i) :: rest =>
    if i.data.pullRequestLinks = false then recordAges rest
    else
      match i.data.closedAt with
      | none => recordAges rest
      | some c =>
        match i.data.createdAt with
        | none => none
        | some cr =>
          let age := Int.tdiv (c - cr) dayNs
          let age := if age < 1 then 1 else age
          (recordAges rest).map (fun l => age :: l)

/-- The recorded closed-PR ages over a project's issue map. -/
def closedAges (p : Project) : Option (List Int) := recordAges p.issues

/-! ### Basic map lemmas -/

theorem mlookup_minsert_self {α : Type} (m : List (Int × α)) (k : Int) (v : α) :
    mlookup (minsert m k v) k = some v := by
  induction m with
  | nil => simp [minsert, mlookup]
  | cons h t ih =>
    obtain ⟨k', v'⟩ := h
    by_cases hk : k = k'
    · subst hk; simp [minsert, mlookup]
    · simp [minsert, hk, mlookup, ih]

theorem mlookup_minsert_of_ne {α : Type} (m : List (Int × α)) {k k' : Int} (v : α)
    (h : k' ≠ k) : mlookup (minsert m k v) k' = mlookup m k' := by
  induction m with
  | nil => simp [minsert, mlookup, h]
  | cons hd t ih =>
    obtain ⟨k₀, v₀⟩ := hd
    by_cases hk : k = k₀
    · subst hk; simp [minsert, mlookup, h]
    · by_cases hk' : k' = k₀
      · subst hk'; simp [minsert, hk, mlookup]
      · simp [minsert, hk, mlookup, hk', ih]

theorem mkeys_minsert {α : Type} (m : List (Int × α)) (k : Int) (v : α) :
    mkeys (minsert m k v) = if k ∈ mkeys m then mkeys m else mkeys m ++ [k] := by
  induction m with
  | nil => simp [minsert, mkeys]
  | cons hd t ih =>
    obtain ⟨k₀, v₀⟩ := hd
    by_cases hk : k = k₀
    · subst hk; simp [minsert, mkeys]
    · by_cases hmem : k ∈ mkeys t
      · simp only [mkeys, List.map_cons] at hmem ⊢
        simp only [mkeys] at ih
        simp [minsert, hk, ih, hmem]
      · simp only [mkeys, List.map_cons] at hmem ⊢
        simp only [mkeys] at ih
        simp [minsert, hk, ih, hmem]

theorem mkeys_minsert_nodup {α : Type} (m : List (Int × α)) (k : Int) (v : α)
    (h : (mkeys m).Nodup) : (mkeys (minsert m k v)).Nodup := by
  rw [mkeys_minsert]
  by_cases hmem : k ∈ mkeys m
  · simpa [hmem] using h
  · simp only [hmem, if_neg, ite_false, List.nodup_append, List.nodup_cons]
    refine ⟨h, by simp, ?_⟩
    intro a ha hb
    simp only [List.mem_singleton] at hb
    subst hb
    exact hmem ha

/-! ### Interner invariants -/

/-- Well-formedness of one ID map: every stored entity sits under its own
nonzero ID.  Every map the program builds satisfies this, since
registration always uses the entity's own `GetID` as the key. -/
def WFmap (m : List (Int × Ent)) : Prop :=
  ∀ k e, mlookup m k = some e → e.id = k ∧ k ≠ 0

/-- `m'` extends `m`: every binding of `m` is still present, unchanged. -/
def mapLE {α : Type} (m m' : List (Int × α)) : Prop :=
  ∀ k v, mlookup m k = some v → mlookup m' k = some v

/-- Well-formedness of the three entity ID maps of a store. -/
def WFp (p : Project) : Prop := WFmap p.users ∧ WFmap p.milestones ∧ WFmap p.repos

/-- `q` extends `p` on all three entity ID maps. -/
def storeLE (p q : Project) : Prop :=
  mapLE p.users q.users ∧ mapLE p.milestones q.milestones ∧ mapLE p.repos q.repos

theorem mapLE_refl {α : Type} (m : List (Int × α)) : mapLE m m := fun _ _ h => h

theorem mapLE_trans {α : Type} {a b c : List (Int × α)} (h1 : mapLE a b) (h2 : mapLE b c) :
    mapLE a c := fun k v h => h2 k v (h1 k v h)

theorem storeLE_refl (p : Project) : storeLE p p :=
  ⟨mapLE_refl _, mapLE_refl _, mapLE_refl _⟩

theorem storeLE_trans {a b c : Project} (h1 : storeLE a b) (h2 : storeLE b c) : storeLE a c :=
  ⟨mapLE_trans h1.1 h2.1, mapLE_trans h1.2.1 h2.2.1, mapLE_trans h1.2.2 h2.2.2⟩

theorem internEnt_mono (m : List (Int × Ent)) (u : Option Ent) :
    mapLE m (internEnt m u).1 := by
  cases u with
  | none => exact mapLE_refl m
  | some e =>
    by_cases hid : e.id ≠ 0
    · cases hl : mlookup m e.id with
      | some c => simp only [internEnt, if_pos hid, hl]; exact mapLE_refl m
      | none =>
        simp only [internEnt, if_pos hid, hl]
        intro k v h
        have hk : k ≠ e.id := by
          intro hk; subst hk; rw [h] at hl; cases hl
        rw [mlookup_minsert_of_ne _ _ hk]; exact h
    · simp only [internEnt, if_neg hid]; exact mapLE_refl m

theorem internEnt_wf (m : List (Int × Ent)) (u : Option Ent) (h : WFmap m) :
    WFmap (internEnt m u).1 := by
  cases u with
  | none => exact h
  | some e =>
    by_cases hid : e.id ≠ 0
    · cases hl : mlookup m e.id with
      | some c => simp only [internEnt, if_pos hid, hl]; exact h
      | none =>
        simp only [internEnt, if_pos hid, hl]
        intro k f hf
        by_cases hk : k = e.id
        · subst hk
          rw [mlookup_minsert_self] at hf
          cases hf
          exact ⟨rfl, hid⟩
        · rw [mlookup_minsert_of_ne _ _ hk] at hf
          exact h k f hf
    · simp only [internEnt, if_neg hid]; exact h

theorem internEnt_getID (m : List (Int × Ent)) (u : Option Ent) (h : WFmap m) :
    getID (internEnt m u).2 = getID u := by
  cases u with
  | none => rfl
  | some e =>
    by_cases hid : e.id ≠ 0
    · cases hl : mlookup m e.id with
      | some c =>
        simp only [internEnt, if_pos hid, hl, getID]
        exact (h _ _ hl).1
      | none => simp only [internEnt, if_pos hid, hl, getID]
    · simp only [internEnt, if_neg hid]

/-- After interning, a reference with a nonzero ID is exactly the stored
canonical instance for that ID. -/
theorem internEnt_canon (m : List (Int × Ent)) (u : Option Ent) (h : WFmap m)
    (e : Ent) (he : (internEnt m u).2 = some e) (hid : e.id ≠ 0) :
    mlookup (internEnt m u).1 e.id = some e := by
  cases u with
  | none => cases he
  | some f =>
    by_cases hf : f.id ≠ 0
    · cases hl : mlookup m f.id with
      | some c =>
        simp only [internEnt, if_pos hf, hl] at he ⊢
        cases he
        rw [(h _ _ hl).1]
        exact hl
      | none =>
        simp only [internEnt, if_pos hf, hl] at he ⊢
        cases he
        exact mlookup_minsert_self m e.id e
    · simp only [internEnt, if_neg hf] at he
      cases he
      simp only [ne_eq, not_not] at hf
      exact absurd hf hid

/-- Interning an already-interned reference against any extension of the
post-intern map changes nothing. -/
theorem internEnt_fixed (m : List (Int × Ent)) (u : Option Ent) (h : WFmap m)
    (m' : List (Int × Ent)) (hle : mapLE (internEnt m u).1 m') :
    internEnt m' (internEnt m u).2 = (m', (internEnt m u).2) := by
  cases u with
  | none => rfl
  | some e =>
    by_cases hid : e.id ≠ 0
    · cases hl : mlookup m e.id with
      | some c =>
        have hcid : c.id = e.id := (h _ _ hl).1
        simp only [internEnt, if_pos hid, hl] at hle ⊢
        have hcne : c.id ≠ 0 := by rw [hcid]; exact hid
        have hc : mlookup m' c.id = some c := by
          rw [hcid]; exact hle _ _ hl
        rw [if_pos hcne, hc]
      | none =>
        simp only [internEnt, if_pos hid, hl] at hle ⊢
        have hm : mlookup m' e.id = some e := hle _ _ (mlookup_minsert_self m e.id e)
        rw [hm]
    · simp only [internEnt, if_neg hid] at hle ⊢

theorem internEnt_keys_nodup (m : List (Int × Ent)) (u : Option Ent)
    (h : (mkeys m).Nodup) : (mkeys (internEnt m u).1).Nodup := by
  cases u with
  | none => exact h
  | some e =>
    by_cases hid : e.id ≠ 0
    · cases hl : mlookup m e.id with
      | some c => simp only [internEnt, if_pos hid, hl]; exact h
      | none =>
        simp only [internEnt, if_pos hid, hl]
        exact mkeys_minsert_nodup m e.id e h
    · simp only [internEnt, if_neg hid]; exact h

theorem internUser_mono (p : Project) (u : Option Ent) : storeLE p (internUser p u).1 :=
  ⟨internEnt_mono p.users u, mapLE_refl _, mapLE_refl _⟩

theorem internMilestone_mono (p : Project) (u : Option Ent) :
    storeLE p (internMilestone p u).1 :=
  ⟨mapLE_refl _, internEnt_mono p.milestones u, mapLE_refl _⟩

theorem internRepo_mono (p : Project) (u : Option Ent) : storeLE p (internRepo p u).1 :=
  ⟨mapLE_refl _, mapLE_refl _, internEnt_mono p.repos u⟩

theorem internUser_wf (p : Project) (u : Option Ent) (h : WFp p) : WFp (internUser p u).1 :=
  ⟨internEnt_wf p.users u h.1, h.2.1, h.2.2⟩

theorem internMilestone_wf (p : Project) (u : Option Ent) (h : WFp p) :
    WFp (internMilestone p u).1 :=
  ⟨h.1, internEnt_wf p.milestones u h.2.1, h.2.2⟩

theorem internRepo_wf (p : Project) (u : Option Ent) (h : WFp p) : WFp (internRepo p u).1 :=
  ⟨h.1, h.2.1, internEnt_wf p.repos u h.2.2⟩

theorem internUser_fixed (p : Project) (u : Option Ent) (q : Project) (h : WFp p)
    (hle : storeLE (internUser p u).1 q) :
    internUser q (internUser p u).2 = (q, (internUser p u).2) := by
  have := internEnt_fixed p.users u h.1 q.users hle.1
  simp only [internUser, this]

theorem internMilestone_fixed (p : Project) (u : Option Ent) (q : Project) (h : WFp p)
    (hle : storeLE (internMilestone p u).1 q) :
    internMilestone q (internMilestone p u).2 = (q, (internMilestone p u).2) := by
  have := internEnt_fixed p.milestones u h.2.1 q.milestones hle.2.1
  simp only [internMilestone, this]

theorem internRepo_fixed (p : Project) (u : Option Ent) (q : Project) (h : WFp p)
    (hle : storeLE (internRepo p u).1 q) :
    internRepo q (internRepo p u).2 = (q, (internRepo p u).2) := by
  have := internEnt_fixed p.repos u h.2.2 q.repos hle.2.2
  simp only [internRepo, this]

theorem internUsers_mono (us : List (Option Ent)) :
    ∀ p : Project, storeLE p (internUsers p us).1 := by
  induction us with
  | nil => intro p; exact storeLE_refl p
  | cons u us ih =>
    intro p
    exact storeLE_trans (internUser_mono p u) (ih (internUser p u).1)

theorem internUsers_wf (us : List (Option Ent)) :
    ∀ p : Project, WFp p → WFp (internUsers p us).1 := by
  induction us with
  | nil => intro p h; exact h
  | cons u us ih =>
    intro p h
    exact ih (internUser p u).1 (internUser_wf p u h)

theorem internUsers_fixed (us : List (Option Ent)) :
    ∀ (p q : Project), WFp p → storeLE (internUsers p us).1 q →
      internUsers q (internUsers p us).2 = (q, (internUsers p us).2) := by
  induction us with
  | nil => intro p q _ _; rfl
  | cons u us ih =>
    intro p q h hle
    simp only [internUsers] at hle ⊢
    have h1 : internUser q (internUser p u).2 = (q, (internUser p u).2) :=
      internUser_fixed p u q h
        (storeLE_trans (internUsers_mono us (internUser p u).1) hle)
    rw [h1]
    have h2 := ih (internUser p u).1 q (internUser_wf p u h) hle
    rw [h2]

theorem internTimelineEvent_mono (p : Project) (t : TimelineEvent) :
    storeLE p (internTimelineEvent p t).1 :=
  storeLE_trans (internUser_mono p t.actor)
    (storeLE_trans (internUser_mono _ t.assignee) (internMilestone_mono _ t.milestone))

theorem internTimelineEvent_wf (p : Project) (t : TimelineEvent) (h : WFp p) :
    WFp (internTimelineEvent p t).1 :=
  internMilestone_wf _ _ (internUser_wf _ _ (internUser_wf _ _ h))

theorem internTimelineEvent_fixed (p : Project) (t : TimelineEvent) (q : Project)
    (h : WFp p) (hle : storeLE (internTimelineEvent p t).1 q) :
    internTimelineEvent q (internTimelineEvent p t).2 = (q, (internTimelineEvent p t).2) := by
  simp only [internTimelineEvent] at hle ⊢
  have h1 : internUser q (internUser p t.actor).2 = (q, (internUser p t.actor).2) :=
    internUser_fixed p t.actor q h
      (storeLE_trans (internUser_mono _ t.assignee)
        (storeLE_trans (internMilestone_mono _ t.milestone) hle))
  have h2 : internUser q (internUser (internUser p t.actor).1 t.assignee).2 =
      (q, (internUser (internUser p t.actor).1 t.assignee).2) :=
    internUser_fixed _ t.assignee q (internUser_wf _ _ h)
      (storeLE_trans (internMilestone_mono _ t.milestone) hle)
  have h3 : internMilestone q
      (internMilestone (internUser (internUser p t.actor).1 t.assignee).1 t.milestone).2 =
      (q, (internMilestone (internUser (internUser p t.actor).1 t.assignee).1 t.milestone).2) :=
    internMilestone_fixed _ t.milestone q (internUser_wf _ _ (internUser_wf _ _ h)) hle
  simp only [h1, h2, h3]

theorem internTimelineList_mono (ts : List TimelineEvent) :
    ∀ p : Project, storeLE p (internTimelineList p ts).1 := by
  induction ts with
  | nil => intro p; exact storeLE_refl p
  | cons t ts ih =>
    intro p
    exact storeLE_trans (internTimelineEvent_mono p t) (ih (internTimelineEvent p t).1)

theorem internTimelineList_wf (ts : List TimelineEvent) :
    ∀ p : Project, WFp p → WFp (internTimelineList p ts).1 := by
  induction ts with
  | nil => intro p h; exact h
  | cons t ts ih =>
    intro p h
    exact ih (internTimelineEvent p t).1 (internTimelineEvent_wf p t h)

theorem internTimelineList_fixed (ts : List TimelineEvent) :
    ∀ (p q : Project), WFp p → storeLE (internTimelineList p ts).1 q →
      internTimelineList q (internTimelineList p ts).2 = (q, (internTimelineList p ts).2) := by
  induction ts with
  | nil => intro p q _ _; rfl
  | cons t ts ih =>
    intro p q h hle
    simp only [internTimelineList] at hle ⊢
    have h1 : internTimelineEvent q (internTimelineEvent p t).2 =
        (q, (internTimelineEvent p t).2) :=
      internTimelineEvent_fixed p t q h
        (storeLE_trans (internTimelineList_mono ts (internTimelineEvent p t).1) hle)
    rw [h1]
    have h2 := ih (internTimelineEvent p t).1 q (internTimelineEvent_wf p t h) hle
    rw [h2]

theorem internCommit_mono (p : Project) (c : Commit) : storeLE p (internCommit p c).1 :=
  storeLE_trans (internUser_mono p c.author) (internUser_mono _ c.committer)

theorem internCommit_wf (p : Project) (c : Commit) (h : WFp p) : WFp (internCommit p c).1 :=
  internUser_wf _ _ (internUser_wf _ _ h)

theorem internCommit_fixed (p : Project) (c : Commit) (q : Project)
    (h : WFp p) (hle : storeLE (internCommit p c).1 q) :
    internCommit q (internCommit p c).2 = (q, (internCommit p c).2) := by
  simp only [internCommit] at hle ⊢
  have h1 : internUser q (internUser p c.author).2 = (q, (internUser p c.author).2) :=
    internUser_fixed p c.author q h
      (storeLE_trans (internUser_mono _ c.committer) hle)
  have h2 : internUser q (internUser (internUser p c.author).1 c.committer).2 =
      (q, (internUser (internUser p c.author).1 c.committer).2) :=
    internUser_fixed _ c.committer q (internUser_wf _ _ h) hle
  simp only [h1, h2]

theorem internCommitList_mono (cs : List Commit) :
    ∀ p : Project, storeLE p (internCommitList p cs).1 := by
  induction cs with
  | nil => intro p; exact storeLE_refl p
  | cons c cs ih =>
    intro p
    exact storeLE_trans (internCommit_mono p c) (ih (internCommit p c).1)

theorem internCommitList_wf (cs : List Commit) :
    ∀ p : Project, WFp p → WFp (internCommitList p cs).1 := by
  induction cs with
  | nil => intro p h; exact h
  | cons c cs ih =>
    intro p h
    exact ih (internCommit p c).1 (internCommit_wf p c h)

theorem internCommitList_fixed (cs : List Commit) :
    ∀ (p q : Project), WFp p → storeLE (internCommitList p cs).1 q →
      internCommitList q (internCommitList p cs).2 = (q, (internCommitList p cs).2) := by
  induction cs with
  | nil => intro p q _ _; rfl
  | cons c cs ih =>
    intro p q h hle
    simp only [internCommitList] at hle ⊢
    have h1 : internCommit q (internCommit p c).2 = (q, (internCommit p c).2) :=
      internCommit_fixed p c q h
        (storeLE_trans (internCommitList_mono cs (internCommit p c).1) hle)
    rw [h1]
    have h2 := ih (internCommit p c).1 q (internCommit_wf p c h) hle
    rw [h2]

theorem internIssue_mono (p : Project) (i : Issue) : storeLE p (internIssue p i).1 := by
  simp only [internIssue]
  exact storeLE_trans (internUser_mono _ _)
    (storeLE_trans (internUser_mono _ _)
      (storeLE_trans (internUser_mono _ _)
        (storeLE_trans (internUsers_mono _ _)
          (storeLE_trans (internMilestone_mono _ _)
            (storeLE_trans (internRepo_mono _ _)
              (storeLE_trans (internTimelineList_mono _ _) (internCommitList_mono _ _)))))))

theorem internIssue_wf (p : Project) (i : Issue) (h : WFp p) : WFp (internIssue p i).1 := by
  simp only [internIssue]
  exact internCommitList_wf _ _
    (internTimelineList_wf _ _
      (internRepo_wf _ _
        (internMilestone_wf _ _
          (internUsers_wf _ _
            (internUser_wf _ _ (internUser_wf _ _ (internUser_wf _ _ h)))))))

theorem internIssue_fixed (p : Project) (i : Issue) (q : Project) (h : WFp p)
    (hle : storeLE (internIssue p i).1 q) :
    internIssue q (internIssue p i).2 = (q, (internIssue p i).2) := by
  rcases h1 : internUser p i.data.user with ⟨p1, u1⟩
  rcases h2 : internUser p1 i.data.assignee with ⟨p2, u2⟩
  rcases h3 : internUser p2 i.data.closedBy with ⟨p3, u3⟩
  rcases h4 : internUsers p3 i.data.assignees with ⟨p4, us4⟩
  rcases h5 : internMilestone p4 i.data.milestone with ⟨p5, m5⟩
  rcases h6 : internRepo p5 i.data.repository with ⟨p6, rp6⟩
  rcases h7 : internTimelineList p6 i.timeline with ⟨p7, tl7⟩
  rcases h8 : internCommitList p7 i.commits with ⟨p8, cs8⟩
  have hII : internIssue p i =
      (p8, ⟨⟨i.data.number, i.data.title, u1, u2, u3, us4, m5, rp6,
             i.data.pullRequestLinks, i.data.createdAt, i.data.closedAt⟩,
            tl7, cs8⟩) := by
    simp only [internIssue, h1, h2, h3, h4, h5, h6, h7, h8]
  rw [hII] at hle ⊢
  have w1 : WFp p1 := by have t := internUser_wf p i.data.user h; rw [h1] at t; exact t
  have w2 : WFp p2 := by have t := internUser_wf p1 i.data.assignee w1; rw [h2] at t; exact t
  have w3 : WFp p3 := by have t := internUser_wf p2 i.data.closedBy w2; rw [h3] at t; exact t
  have w4 : WFp p4 := by have t := internUsers_wf i.data.assignees p3 w3; rw [h4] at t; exact t
  have w5 : WFp p5 := by have t := internMilestone_wf p4 i.data.milestone w4; rw [h5] at t; exact t
  have w6 : WFp p6 := by have t := internRepo_wf p5 i.data.repository w5; rw [h6] at t; exact t
  have w7 : WFp p7 := by have t := internTimelineList_wf i.timeline p6 w6; rw [h7] at t; exact t
  have l2 : storeLE p1 p2 := by have t := internUser_mono p1 i.data.assignee; rw [h2] at t; exact t
  have l3 : storeLE p2 p3 := by have t := internUser_mono p2 i.data.closedBy; rw [h3] at t; exact t
  have l4 : storeLE p3 p4 := by have t := internUsers_mono i.data.assignees p3; rw [h4] at t; exact t
  have l5 : storeLE p4 p5 := by have t := internMilestone_mono p4 i.data.milestone; rw [h5] at t; exact t
  have l6 : storeLE p5 p6 := by have t := internRepo_mono p5 i.data.repository; rw [h6] at t; exact t
  have l7 : storeLE p6 p7 := by have t := internTimelineList_mono i.timeline p6; rw [h7] at t; exact t
  have l8 : storeLE p7 p8 := by have t := internCommitList_mono i.commits p7; rw [h8] at t; exact t
  have q1 : storeLE p1 q :=
    storeLE_trans l2 (storeLE_trans l3 (storeLE_trans l4 (storeLE_trans l5
      (storeLE_trans l6 (storeLE_trans l7 (storeLE_trans l8 hle))))))
  have q2 : storeLE p2 q :=
    storeLE_trans l3 (storeLE_trans l4 (storeLE_trans l5
      (storeLE_trans l6 (storeLE_trans l7 (storeLE_trans l8 hle)))))
  have q3 : storeLE p3 q :=
    storeLE_trans l4 (storeLE_trans l5 (storeLE_trans l6 (storeLE_trans l7 (storeLE_trans l8 hle))))
  have q4 : storeLE p4 q :=
    storeLE_trans l5 (storeLE_trans l6 (storeLE_trans l7 (storeLE_trans l8 hle)))
  have q5 : storeLE p5 q := storeLE_trans l6 (storeLE_trans l7 (storeLE_trans l8 hle))
  have q6 : storeLE p6 q := storeLE_trans l7 (storeLE_trans l8 hle)
  have q7 : storeLE p7 q := storeLE_trans l8 hle
  have f1 : internUser q u1 = (q, u1) := by
    have t := internUser_fixed p i.data.user q h (by rw [h1]; exact q1)
    rw [h1] at t; exact t
  have f2 : internUser q u2 = (q, u2) := by
    have t := internUser_fixed p1 i.data.assignee q w1 (by rw [h2]; exact q2)
    rw [h2] at t; exact t
  have f3 : internUser q u3 = (q, u3) := by
    have t := internUser_fixed p2 i.data.closedBy q w2 (by rw [h3]; exact q3)
    rw [h3] at t; exact t
  have f4 : internUsers q us4 = (q, us4) := by
    have t := internUsers_fixed i.data.assignees p3 q w3 (by rw [h4]; exact q4)
    rw [h4] at t; exact t
  have f5 : internMilestone q m5 = (q, m5) := by
    have t := internMilestone_fixed p4 i.data.milestone q w4 (by rw [h5]; exact q5)
    rw [h5] at t; exact t
  have f6 : internRepo q rp6 = (q, rp6) := by
    have t := internRepo_fixed p5 i.data.repository q w5 (by rw [h6]; exact q6)
    rw [h6] at t; exact t
  have f7 : internTimelineList q tl7 = (q, tl7) := by
    have t := internTimelineList_fixed i.timeline p6 q w6 (by rw [h7]; exact q7)
    rw [h7] at t; exact t
  have f8 : internCommitList q cs8 = (q, cs8) := by
    have t := internCommitList_fixed i.commits p7 q w7 (by rw [h8]; exact hle)
    rw [h8] at t; exact t
  simp only [internIssue, f1, f2, f3, f4, f5, f6, f7, f8]

/-- All three entity-ID key lists of a store are duplicate-free. -/
def NodupKeys (p : Project) : Prop :=
  (mkeys p.users).Nodup ∧ (mkeys p.milestones).Nodup ∧ (mkeys p.repos).Nodup

theorem internUser_nodup (p : Project) (u : Option Ent) (h : NodupKeys p) :
    NodupKeys (internUser p u).1 :=
  ⟨internEnt_keys_nodup p.users u h.1, h.2.1, h.2.2⟩

theorem internMilestone_nodup (p : Project) (u : Option Ent) (h : NodupKeys p) :
    NodupKeys (internMilestone p u).1 :=
  ⟨h.1, internEnt_keys_nodup p.milestones u h.2.1, h.2.2⟩

theorem internRepo_nodup (p : Project) (u : Option Ent) (h : NodupKeys p) :
    NodupKeys (internRepo p u).1 :=
  ⟨h.1, h.2.1, internEnt_keys_nodup p.repos u h.2.2⟩

theorem internUsers_nodup (us : List (Option Ent)) :
    ∀ p : Project, NodupKeys p → NodupKeys (internUsers p us).1 := by
  induction us with
  | nil => intro p h; exact h
  | cons u us ih => intro p h; exact ih (internUser p u).1 (internUser_nodup p u h)

theorem internTimelineEvent_nodup (p : Project) (t : TimelineEvent) (h : NodupKeys p) :
    NodupKeys (internTimelineEvent p t).1 :=
  internMilestone_nodup _ _ (internUser_nodup _ _ (internUser_nodup _ _ h))

theorem internTimelineList_nodup (ts : List TimelineEvent) :
    ∀ p : Project, NodupKeys p → NodupKeys (internTimelineList p ts).1 := by
  induction ts with
  | nil => intro p h; exact h
  | cons t ts ih =>
    intro p h; exact ih (internTimelineEvent p t).1 (internTimelineEvent_nodup p t h)

theorem internCommit_nodup (p : Project) (c : Commit) (h : NodupKeys p) :
    NodupKeys (internCommit p c).1 :=
  internUser_nodup _ _ (internUser_nodup _ _ h)

theorem internCommitList_nodup (cs : List Commit) :
    ∀ p : Project, NodupKeys p → NodupKeys (internCommitList p cs).1 := by
  induction cs with
  | nil => intro p h; exact h
  | cons c cs ih => intro p h; exact ih (internCommit p c).1 (internCommit_nodup p c h)

theorem internIssue_nodup (p : Project) (i : Issue) (h : NodupKeys p) :
    NodupKeys (internIssue p i).1 := by
  simp only [internIssue]
  exact internCommitList_nodup _ _
    (internTimelineList_nodup _ _
      (internRepo_nodup _ _
        (internMilestone_nodup _ _
          (internUsers_nodup _ _
            (internUser_nodup _ _ (internUser_nodup _ _ (internUser_nodup _ _ h)))))))

/-- C1: Interning invariant.  For an ID map of any of the three entity
spaces (instantiating `internEnt` as `internUser`, `internMilestone` or
`internRepo` does): a zero/unset reference is left untouched; a reference
whose nonzero ID is already stored is rewritten to the stored canonical
instance; an unseen nonzero ID registers the given instance; key lists
stay duplicate-free (at most one canonical record per ID); and any two
references interned one after the other that end up with the same nonzero
ID are the very same instance. -/
theorem internEnt_invariant (m : List (Int × Ent)) (u : Option Ent) :
    (getID u = 0 → internEnt m u = (m, u)) ∧
    (∀ c : Ent, getID u ≠ 0 → mlookup m (getID u) = some c → internEnt m u = (m, some c)) ∧
    (∀ e : Ent, u = some e → e.id ≠ 0 → mlookup m e.id = none →
      internEnt m u = (minsert m e.id e, some e)) ∧
    ((mkeys m).Nodup → (mkeys (internEnt m u).1).Nodup) ∧
    (WFmap m → ∀ (v : Option Ent) (e f : Ent),
      (internEnt m u).2 = some e →
      (internEnt (internEnt m u).1 v).2 = some f →
      e.id = f.id → e.id ≠ 0 → e = f) := by
  refine ⟨?_, ?_, ?_, internEnt_keys_nodup m u, ?_⟩
  · intro h0
    cases u with
    | none => rfl
    | some e =>
      simp only [getID] at h0
      simp only [internEnt, h0, ne_eq, not_true_eq_false, if_false]
  · intro c hne hc
    cases u with
    | none => simp [getID] at hne
    | some e =>
      simp only [getID] at hne hc
      simp only [internEnt, if_pos hne, hc]
  · intro e he hne hl
    subst he
    simp only [internEnt, if_pos hne, hl]
  · intro hwf v e f he hf hef hne
    have wf1 : WFmap (internEnt m u).1 := internEnt_wf m u hwf
    have hcanon : mlookup (internEnt m u).1 e.id = some e :=
      internEnt_canon m u hwf e he hne
    obtain ⟨m1, hm1⟩ : ∃ m1, (internEnt m u).1 = m1 := ⟨_, rfl⟩
    rw [hm1] at wf1 hcanon hf
    cases v with
    | none => simp [internEnt] at hf
    | some g =>
      by_cases hg : g.id ≠ 0
      · cases hl : mlookup m1 g.id with
        | some c =>
          simp only [internEnt, if_pos hg, hl] at hf
          cases hf
          have : g.id = e.id := by rw [hef, (wf1 _ _ hl).1]
          rw [this, hcanon] at hl
          cases hl
          rfl
        | none =>
          simp only [internEnt, if_pos hg, hl] at hf
          cases hf
          rw [hef] at hcanon
          rw [hcanon] at hl
          cases hl
      · simp only [internEnt, if_neg hg] at hf
        cases hf
        simp only [ne_eq, not_not] at hg
        rw [hef, hg] at hne
        exact absurd rfl hne

/-- Witness for `internEnt_invariant`: registering ID 5 into the empty map,
then interning a second, distinct instance carrying the same ID yields the
first (canonical) instance back. -/
theorem internEnt_invariant_witness :
    internEnt [] (some ⟨1, 5⟩) = ([((5 : Int), (⟨1, 5⟩ : Ent))], some ⟨1, 5⟩) ∧
    (⟨1, 5⟩ : Ent) = ⟨1, 5⟩ := by
  constructor
  · exact (internEnt_invariant [] (some ⟨1, 5⟩)).2.2.1 ⟨1, 5⟩ rfl (by decide) (by decide)
  · exact (internEnt_invariant [] (some ⟨1, 5⟩)).2.2.2.2 (by intro k e h; cases h)
      (some ⟨2, 5⟩) ⟨1, 5⟩ ⟨1, 5⟩ (by decide) (by decide) rfl (by decide)

/-- C2: Interning idempotence.  From a well-formed store, interning an
issue a second time changes nothing: store maps and every reference in the
issue are identical after the second application, and the entity key lists
remain duplicate-free (one instance per interned ID). -/
theorem internIssue_idempotent (p : Project) (i : Issue) (h : WFp p) (hnd : NodupKeys p) :
    internIssue (internIssue p i).1 (internIssue p i).2 = internIssue p i ∧
    NodupKeys (internIssue p i).1 := by
  constructor
  · have t := internIssue_fixed p i (internIssue p i).1 h (storeLE_refl _)
    rw [t]
  · exact internIssue_nodup p i hnd

/-- Witness for `internIssue_idempotent` at a concrete store and issue with
a shared author/committer ID. -/
theorem internIssue_idempotent_witness :
    internIssue
        (internIssue ⟨"o", "r", 0, [], [], [], []⟩
          ⟨⟨some 7, none, some ⟨1, 5⟩, none, none, [some ⟨2, 5⟩], some ⟨3, 9⟩, none, true,
            none, none⟩, [⟨some ⟨4, 5⟩, none, some ⟨5, 9⟩⟩], [⟨some ⟨6, 5⟩, some ⟨7, 5⟩⟩]⟩).1
        (internIssue ⟨"o", "r", 0, [], [], [], []⟩
          ⟨⟨some 7, none, some ⟨1, 5⟩, none, none, [some ⟨2, 5⟩], some ⟨3, 9⟩, none, true,
            none, none⟩, [⟨some ⟨4, 5⟩, none, some ⟨5, 9⟩⟩], [⟨some ⟨6, 5⟩, some ⟨7, 5⟩⟩]⟩).2 =
      internIssue ⟨"o", "r", 0, [], [], [], []⟩
        ⟨⟨some 7, none, some ⟨1, 5⟩, none, none, [some ⟨2, 5⟩], some ⟨3, 9⟩, none, true,
          none, none⟩, [⟨some ⟨4, 5⟩, none, some ⟨5, 9⟩⟩], [⟨some ⟨6, 5⟩, some ⟨7, 5⟩⟩]⟩ :=
  (internIssue_idempotent ⟨"o", "r", 0, [], [], [], []⟩
    ⟨⟨some 7, none, some ⟨1, 5⟩, none, none, [some ⟨2, 5⟩], some ⟨3, 9⟩, none, true,
      none, none⟩, [⟨some ⟨4, 5⟩, none, some ⟨5, 9⟩⟩], [⟨some ⟨6, 5⟩, some ⟨7, 5⟩⟩]⟩
    ⟨by intro k e hk; simp [mlookup] at hk, by intro k e hk; simp [mlookup] at hk,
     by intro k e hk; simp [mlookup] at hk⟩
    ⟨by simp [mkeys], by simp [mkeys], by simp [mkeys]⟩).1

/-! ### Closed-PR age aggregation (C9) -/

/-- A pull-request issue created at time `t` (unix nanoseconds) and closed
36 hours later, with no other references. -/
def pr36h (t : Int) : Issue :=
  ⟨⟨some 43, none, none, none, none, [], none, none, true,
    some t, some (t + 36 * 3600 * 1000000000)⟩, [], []⟩

/-- Issue #42 of the spec's scenario: no pull-request linkage, no ClosedAt. -/
def plain42 : Issue :=
  ⟨⟨some 42, none, none, none, none, [], none, none, false, none, none⟩, [], []⟩

/-- C9 counterexample: a PR created at `T` and closed at `T+36h` is
recorded with age 1 (Go integer division of durations truncates), not the
claimed rounded-up 2 days. -/
theorem closedAges_36h_counterexample :
    closedAges ⟨"o", "r", 0, [(43, pr36h 0)], [], [], []⟩ = some [1] ∧
    closedAges ⟨"o", "r", 0, [(43, pr36h 0)], [], [], []⟩ ≠ some [2] := by
  constructor <;> decide

/-- C9 (amended): an issue without pull-request linkage, or without a
recorded ClosedAt, contributes nothing to the closed-duration aggregation;
a PR created at `t` and closed at `t+36h` is recorded with an age of 1 day
(duration divided by 24h with Go's truncating integer division, clamped
below at 1 day). -/
theorem closedAges_amended :
    (∀ (n : Int) (i : Issue) (rest : List (Int × Issue)),
      i.data.pullRequestLinks = false → recordAges ((n, i) :: rest) = recordAges rest) ∧
    (∀ (n : Int) (i : Issue) (rest : List (Int × Issue)),
      i.data.closedAt = none → recordAges ((n, i) :: rest) = recordAges rest) ∧
    (∀ t : Int, closedAges ⟨"o", "r", 0, [(43, pr36h t)], [], [], []⟩ = some [1]) := by
  refine ⟨?_, ?_, ?_⟩
  · intro n i rest hpr
    simp only [recordAges, hpr, if_pos]
  · intro n i rest hca
    simp only [recordAges, hca]
    split <;> rfl
  · intro t
    have h36 : t + 36 * 3600 * 1000000000 - t = 36 * 3600 * 1000000000 := by ring
    simp only [closedAges, recordAges, pr36h]
    norm_num [h36]
    decide

/-- Witness for `closedAges_amended`: issue #42 (no PR link, no ClosedAt)
records nothing; the 36-hour PR records age 1. -/
theorem closedAges_amended_witness :
    recordAges [((42 : Int), plain42)] = recordAges [] ∧
    closedAges ⟨"o", "r", 0, [(43, pr36h 0)], [], [], []⟩ = some [1] :=
  ⟨closedAges_amended.1 42 plain42 [] rfl, closedAges_amended.2.2 0⟩

/-! ### Cache persistence (C7, C8, C10) -/

/-- Content of one cache-directory file, as the JSON codec sees it. -/
inductive FileData where
  | metaF (owner repo : String) (refreshedAt : Int)
  | issueF (i : Issue)
  | badJSON
deriving DecidableEq, Repr

/-- File lookup in a directory listing. -/
def dlookup : List (String × FileData) → String → Option FileData
  | [], _ => none
  | (n, c) :: t, n' => if n' = n then some c else dlookup t n'

/-- Fuel-driven digit expansion (the fuel only serves structural
recursion; `natDigits` supplies enough of it). -/
def natDigitsAux : Nat → Nat → List Char
  | 0, _ => []
  | fuel + 1, n =>
    if n < 10 then [Char.ofNat (48 + n)]
    else natDigitsAux fuel (n / 10) ++ [Char.ofNat (48 + n % 10)]

/-- Decimal digit characters of a natural number. -/
def natDigits (n : Nat) : List Char := natDigitsAux (n + 1) n

theorem natDigitsAux_irrel (fuel : Nat) : ∀ (fuel' n : Nat), n < fuel → n < fuel' →
    natDigitsAux fuel n = natDigitsAux fuel' n := by
  induction fuel with
  | zero => intro fuel' n h _; omega
  | succ fuel ih =>
    intro fuel' n h h'
    cases fuel' with
    | zero => omega
    | succ fuel' =>
      simp only [natDigitsAux]
      by_cases h10 : n < 10
      · rw [if_pos h10, if_pos h10]
      · rw [if_neg h10, if_neg h10]
        congr 1
        have hdiv : n / 10 < n := Nat.div_lt_self (by omega) (by omega)
        exact ih fuel' (n / 10) (by omega) (by omega)

/-- The recursive unfolding of `natDigits`. -/
theorem natDigits_eq (n : Nat) :
    natDigits n = if n < 10 then [Char.ofNat (48 + n)]
                  else natDigits (n / 10) ++ [Char.ofNat (48 + n % 10)] := by
  show natDigitsAux (n + 1) n = _
  simp only [natDigitsAux]
  by_cases h10 : n < 10
  · rw [if_pos h10, if_pos h10]
  · rw [if_neg h10, if_neg h10]
    congr 1
    have hdiv : n / 10 < n := Nat.div_lt_self (by omega) (by omega)
    exact natDigitsAux_irrel n (n / 10 + 1) (n / 10) (by omega) (by omega)

/-- `fmt.Sprintf("%d", n)` as used by `Issue.save` (main.go:107). -/
def fileNameOf (n : Int) : String :=
  if n < 0 then ⟨'-' :: natDigits n.natAbs⟩ else ⟨natDigits n.natAbs⟩

/-- A decimal digit's value, else `none`. -/
def digitVal (c : Char) : Option Nat :=
  if 48 ≤ c.toNat ∧ c.toNat ≤ 57 then some (c.toNat - 48) else none

/-- Accumulating decimal parse of a digit string. -/
def parseDigitsAcc (acc : Nat) : List Char → Option Nat
  | [] => some acc
  | c :: rest =>
    match digitVal c with
    | some d => parseDigitsAcc (acc * 10 + d) rest
    | none => none

/-- `n, _ := strconv.Atoi(name)` as used in `load` (main.go:322): the error
is discarded, so any string that fails to parse yields `0`.  `Atoi` accepts
an optional leading sign followed by decimal digits. -/
def goAtoi (s : String) : Int :=
  match s.data with
  | [] => 0
  | c :: rest =>
    if c = '-' then
      match parseDigitsAcc 0 rest with
      | some n => -(n : Int)
      | none => 0
    else if c = '+' then
      match parseDigitsAcc 0 rest with
      | some n => (n : Int)
      | none => 0
    else
      match parseDigitsAcc 0 (c :: rest) with
      | some n => (n : Int)
      | none => 0

/-- Outcome of `Project.load`: normal completion, `log.Fatal` (the
documented cache-corruption path), or a nil-pointer dereference panic. -/
inductive LoadRes where
  | ok (p : Project)
  | fatalErr
  | nilPanic
deriving DecidableEq, Repr

/-- The zero value `&Issue{}`: all pointer fields nil, slices nil. -/
def emptyIssue : Issue :=
  ⟨⟨none, none, none, none, none, [], none, none, false, none, none⟩, [], []⟩

/-- `loadJSON` into `&Issue{}` for one existing cache file (main.go:326-327):
malformed JSON is fatal; a JSON object carrying none of the Issue fields
(e.g. metadata-shaped) leaves the zero Issue behind. -/
def decodeIssueFile : FileData → Except Unit Issue
  | .issueF i => .ok i
  | .metaF _ _ _ => .ok emptyIssue
  | .badJSON => .error ()

/-- The per-file loop of `Project.load` (main.go:321-330): skip names whose
`Atoi` result is 0, else deserialize, intern, and insert under the `Number`
found inside the file (`*i.Number`, a nil dereference when absent). -/
def loadFiles (p : Project) : List (String × FileData) → LoadRes
  | [] => .ok p
  | (name, content) :: rest =>
    if goAtoi name = 0 then loadFiles p rest
    else
      match decodeIssueFile content with
      | .error _ => .fatalErr
      | .ok i =>
        let r := internIssue p i
        match r.2.data.number with
        | none => .nilPanic
        | some num =>
          loadFiles ⟨r.1.owner, r.1.repo, r.1.refreshedAt,
                     minsert r.1.issues num r.2, r.1.users, r.1.milestones, r.1.repos⟩ rest

/-- `loadJSON(filepath.Join(*cache, "meta"), p)` (main.go:312): absence is
not an error; malformed JSON is fatal; a metadata file sets Project's
exported fields; an issue-shaped object sets none of them. -/
def loadMeta (dir : List (String × FileData)) (p : Project) : Except Unit Project :=
  match dlookup dir "meta" with
  | none => .ok p
  | some (.metaF o r t) => .ok ⟨o, r, t, p.issues, p.users, p.milestones, p.repos⟩
  | some (.issueF _) => .ok p
  | some .badJSON => .error ()

/-- `Project.load` (main.go:311-333). -/
def load (dir : List (String × FileData)) (p : Project) : LoadRes :=
  match loadMeta dir p with
  | .error _ => .fatalErr
  | .ok p1 => loadFiles p1 dir

/-- JSON serialization does not record pointer identity: a later decode
allocates fresh objects.  Erasing `addr` models this. -/
def eraseEnt : Option Ent → Option Ent
  | none => none
  | some e => some ⟨0, e.id⟩

def eraseTimelineEvent (t : TimelineEvent) : TimelineEvent :=
  ⟨eraseEnt t.actor, eraseEnt t.assignee, eraseEnt t.milestone⟩

def eraseCommit (c : Commit) : Commit :=
  ⟨eraseEnt c.author, eraseEnt c.committer⟩

/-- The Issue as it reads back from its JSON file: all field values kept,
pointer identity erased. -/
def eraseIssue (i : Issue) : Issue :=
  ⟨⟨i.data.number, i.data.title, eraseEnt i.data.user, eraseEnt i.data.assignee,
    eraseEnt i.data.closedBy, i.data.assignees.map eraseEnt, eraseEnt i.data.milestone,
    eraseEnt i.data.repository, i.data.pullRequestLinks, i.data.createdAt, i.data.closedAt⟩,
   i.timeline.map eraseTimelineEvent, i.commits.map eraseCommit⟩

/-- `Issue.save` (main.go:106-108): writes the file named by `*i.Number`
(a nil dereference when `Number` is unset). -/
def saveIssueFile (i : Issue) : Option (String × FileData) :=
  match i.data.number with
  | none => none
  | some n => some (fileNameOf n, .issueF (eraseIssue i))

/-- One `Issue.save` per stored issue. -/
def saveAll : List (Int × Issue) → Option (List (String × FileData))
  | [] => some []
  | kv :: rest =>
    match saveIssueFile kv.2 with
    | none => none
    | some f => (saveAll rest).map (fun fs => f :: fs)

/-- `Project.save` (main.go:335-337) plus one `Issue.save` per issue: the
resulting cache-directory contents. -/
def persist (p : Project) : Option (List (String × FileData)) :=
  (saveAll p.issues).map
    (fun fs => ("meta", FileData.metaF p.owner p.repo p.refreshedAt) :: fs)

/-- The observable content of an Issue up to pointer identity: number and
scalar fields, referenced entity IDs, and Timeline/Commits lengths. -/
def issueKey (i : Issue) :
    Option Int × Option String × Int × Int × Int × List Int × Int × Int × Bool ×
      Option Int × Option Int × Nat × Nat :=
  (i.data.number, i.data.title, getID i.data.user, getID i.data.assignee,
   getID i.data.closedBy, i.data.assignees.map getID, getID i.data.milestone,
   getID i.data.repository, i.data.pullRequestLinks, i.data.createdAt,
   i.data.closedAt, i.timeline.length, i.commits.length)

/-- Equality up to pointer identity, the equivalence of the reload
round-trip property (same numbers, same field values, same
Timeline/Commit lengths). -/
def IssueEquiv (i j : Issue) : Prop := issueKey i = issueKey j

/-! ### Decimal round trip -/

theorem parseDigitsAcc_append (acc : Nat) (xs ys : List Char) :
    parseDigitsAcc acc (xs ++ ys) =
      match parseDigitsAcc acc xs with
      | some m => parseDigitsAcc m ys
      | none => none := by
  induction xs generalizing acc with
  | nil => rfl
  | cons c rest ih =>
    simp only [List.cons_append, parseDigitsAcc]
    cases digitVal c with
    | none => rfl
    | some d => exact ih _

theorem digitVal_ofNat (d : Nat) (h : d < 10) : digitVal (Char.ofNat (48 + d)) = some d := by
  interval_cases d <;> decide

theorem toNat_ofNat_digit (d : Nat) (h : d < 10) : (Char.ofNat (48 + d)).toNat = 48 + d := by
  interval_cases d <;> decide

theorem parseDigitsAcc_natDigits (n : Nat) :
    ∀ acc, parseDigitsAcc acc (natDigits n) = some (acc * 10 ^ (natDigits n).length + n) := by
  induction n using Nat.strong_induction_on with
  | _ n ih =>
    intro acc
    by_cases h : n < 10
    · rw [natDigits_eq, if_pos h]
      simp only [parseDigitsAcc, digitVal_ofNat n h, List.length_singleton]
      norm_num
    · rw [natDigits_eq, if_neg h]
      rw [parseDigitsAcc_append]
      rw [ih (n / 10) (Nat.div_lt_self (by omega) (by omega))]
      have hm : n % 10 < 10 := Nat.mod_lt _ (by omega)
      simp only [parseDigitsAcc, digitVal_ofNat _ hm, List.length_append,
        List.length_singleton]
      congr 1
      have hdm : n / 10 * 10 + n % 10 = n := by omega
      generalize (natDigits (n / 10)).length = L
      rw [pow_succ, Nat.add_mul, Nat.add_assoc, hdm, Nat.mul_assoc]

theorem natDigits_head_digit (n : Nat) :
    ∃ c cs, natDigits n = c :: cs ∧ 48 ≤ c.toNat ∧ c.toNat ≤ 57 := by
  induction n using Nat.strong_induction_on with
  | _ n ih =>
    by_cases h : n < 10
    · refine ⟨Char.ofNat (48 + n), [], by rw [natDigits_eq, if_pos h], ?_, ?_⟩ <;>
        rw [toNat_ofNat_digit n h] <;> omega
    · obtain ⟨c, cs, hc, h1, h2⟩ := ih (n / 10) (Nat.div_lt_self (by omega) (by omega))
      exact ⟨c, cs ++ [Char.ofNat (48 + n % 10)],
        by rw [natDigits_eq, if_neg h, hc, List.cons_append], h1, h2⟩

theorem goAtoi_fileNameOf (n : Int) : goAtoi (fileNameOf n) = n := by
  by_cases hneg : n < 0
  · simp only [fileNameOf, if_pos hneg, goAtoi, if_true]
    rw [parseDigitsAcc_natDigits]
    simp only [Nat.zero_mul, Nat.zero_add]
    omega
  · simp only [fileNameOf, if_neg hneg, goAtoi]
    obtain ⟨c, cs, hc, h1, h2⟩ := natDigits_head_digit n.natAbs
    rw [hc]
    have hdash : ('-' : Char).toNat = 45 := rfl
    have hplus : ('+' : Char).toNat = 43 := rfl
    have hc1 : ¬(c = '-') := by
      intro e; rw [e, hdash] at h1; omega
    have hc2 : ¬(c = '+') := by
      intro e; rw [e, hplus] at h1; omega
    simp only [hc1, hc2, if_false, ← hc]
    rw [parseDigitsAcc_natDigits]
    simp only [Nat.zero_mul, Nat.zero_add]
    omega

/-! ### Interning preserves the observable content and the shell -/

/-- The fields of a `Project` other than the three entity ID maps. -/
def shell (p : Project) : String × String × Int × List (Int × Issue) :=
  (p.owner, p.repo, p.refreshedAt, p.issues)

theorem internUser_shell (p : Project) (u : Option Ent) :
    shell (internUser p u).1 = shell p := rfl

theorem internMilestone_shell (p : Project) (u : Option Ent) :
    shell (internMilestone p u).1 = shell p := rfl

theorem internRepo_shell (p : Project) (u : Option Ent) :
    shell (internRepo p u).1 = shell p := rfl

theorem internUsers_shell (us : List (Option Ent)) :
    ∀ p : Project, shell (internUsers p us).1 = shell p := by
  induction us with
  | nil => intro p; rfl
  | cons u us ih => intro p; exact ih (internUser p u).1

theorem internTimelineEvent_shell (p : Project) (t : TimelineEvent) :
    shell (internTimelineEvent p t).1 = shell p := rfl

theorem internTimelineList_shell (ts : List TimelineEvent) :
    ∀ p : Project, shell (internTimelineList p ts).1 = shell p := by
  induction ts with
  | nil => intro p; rfl
  | cons t ts ih => intro p; exact ih (internTimelineEvent p t).1

theorem internCommit_shell (p : Project) (c : Commit) :
    shell (internCommit p c).1 = shell p := rfl

theorem internCommitList_shell (cs : List Commit) :
    ∀ p : Project, shell (internCommitList p cs).1 = shell p := by
  induction cs with
  | nil => intro p; rfl
  | cons c cs ih => intro p; exact ih (internCommit p c).1

theorem internIssue_shell (p : Project) (i : Issue) :
    shell (internIssue p i).1 = shell p := by
  simp only [internIssue]
  rw [internCommitList_shell, internTimelineList_shell, internRepo_shell,
    internMilestone_shell, internUsers_shell, internUser_shell, internUser_shell,
    internUser_shell]

theorem internIssue_issues (p : Project) (i : Issue) :
    (internIssue p i).1.issues = p.issues :=
  congrArg (fun s => s.2.2.2) (internIssue_shell p i)

theorem internUser_getID (p : Project) (u : Option Ent) (h : WFp p) :
    getID (internUser p u).2 = getID u := internEnt_getID p.users u h.1

theorem internMilestone_getID (p : Project) (u : Option Ent) (h : WFp p) :
    getID (internMilestone p u).2 = getID u := internEnt_getID p.milestones u h.2.1

theorem internRepo_getID (p : Project) (u : Option Ent) (h : WFp p) :
    getID (internRepo p u).2 = getID u := internEnt_getID p.repos u h.2.2

theorem internUsers_getID (us : List (Option Ent)) :
    ∀ p : Project, WFp p → (internUsers p us).2.map getID = us.map getID := by
  induction us with
  | nil => intro p _; rfl
  | cons u us ih =>
    intro p h
    simp only [internUsers, List.map_cons]
    rw [internUser_getID p u h, ih (internUser p u).1 (internUser_wf p u h)]

theorem internTimelineList_length (ts : List TimelineEvent) :
    ∀ p : Project, (internTimelineList p ts).2.length = ts.length := by
  induction ts with
  | nil => intro p; rfl
  | cons t ts ih =>
    intro p
    simp only [internTimelineList, List.length_cons]
    rw [ih (internTimelineEvent p t).1]

theorem internCommitList_length (cs : List Commit) :
    ∀ p : Project, (internCommitList p cs).2.length = cs.length := by
  induction cs with
  | nil => intro p; rfl
  | cons c cs ih =>
    intro p
    simp only [internCommitList, List.length_cons]
    rw [ih (internCommit p c).1]

/-- Interning an issue against a well-formed store preserves its
observable content: only pointer identities change. -/
theorem internIssue_key (p : Project) (i : Issue) (h : WFp p) :
    issueKey (internIssue p i).2 = issueKey i := by
  rcases h1 : internUser p i.data.user with ⟨p1, u1⟩
  rcases h2 : internUser p1 i.data.assignee with ⟨p2, u2⟩
  rcases h3 : internUser p2 i.data.closedBy with ⟨p3, u3⟩
  rcases h4 : internUsers p3 i.data.assignees with ⟨p4, us4⟩
  rcases h5 : internMilestone p4 i.data.milestone with ⟨p5, m5⟩
  rcases h6 : internRepo p5 i.data.repository with ⟨p6, rp6⟩
  rcases h7 : internTimelineList p6 i.timeline with ⟨p7, tl7⟩
  rcases h8 : internCommitList p7 i.commits with ⟨p8, cs8⟩
  have w1 : WFp p1 := by have t := internUser_wf p i.data.user h; rw [h1] at t; exact t
  have w2 : WFp p2 := by have t := internUser_wf p1 i.data.assignee w1; rw [h2] at t; exact t
  have w3 : WFp p3 := by have t := internUser_wf p2 i.data.closedBy w2; rw [h3] at t; exact t
  have w4 : WFp p4 := by have t := internUsers_wf i.data.assignees p3 w3; rw [h4] at t; exact t
  have w5 : WFp p5 := by have t := internMilestone_wf p4 i.data.milestone w4; rw [h5] at t; exact t
  have g1 : getID u1 = getID i.data.user := by
    have t := internUser_getID p i.data.user h; rw [h1] at t; exact t
  have g2 : getID u2 = getID i.data.assignee := by
    have t := internUser_getID p1 i.data.assignee w1; rw [h2] at t; exact t
  have g3 : getID u3 = getID i.data.closedBy := by
    have t := internUser_getID p2 i.data.closedBy w2; rw [h3] at t; exact t
  have g4 : us4.map getID = i.data.assignees.map getID := by
    have t := internUsers_getID i.data.assignees p3 w3; rw [h4] at t; exact t
  have g5 : getID m5 = getID i.data.milestone := by
    have t := internMilestone_getID p4 i.data.milestone w4; rw [h5] at t; exact t
  have g6 : getID rp6 = getID i.data.repository := by
    have t := internRepo_getID p5 i.data.repository w5; rw [h6] at t; exact t
  have g7 : tl7.length = i.timeline.length := by
    have t := internTimelineList_length i.timeline p6; rw [h7] at t; exact t
  have g8 : cs8.length = i.commits.length := by
    have t := internCommitList_length i.commits p7; rw [h8] at t; exact t
  have hII : internIssue p i =
      (p8, ⟨⟨i.data.number, i.data.title, u1, u2, u3, us4, m5, rp6,
             i.data.pullRequestLinks, i.data.createdAt, i.data.closedAt⟩,
            tl7, cs8⟩) := by
    simp only [internIssue, h1, h2, h3, h4, h5, h6, h7, h8]
  rw [hII]
  simp only [issueKey, Prod.mk.injEq]
  simp [g1, g2, g3, g4, g5, g6, g7, g8]

theorem getID_eraseEnt (u : Option Ent) : getID (eraseEnt u) = getID u := by
  cases u <;> rfl

/-- Serialization (pointer-identity erasure) preserves observable content. -/
theorem issueKey_eraseIssue (i : Issue) : issueKey (eraseIssue i) = issueKey i := by
  simp only [issueKey, eraseIssue, Prod.mk.injEq, List.map_map, List.length_map]
  have hmap : i.data.assignees.map (getID ∘ eraseEnt) = i.data.assignees.map getID := by
    apply List.map_congr_left
    intro a _
    exact getID_eraseEnt a
  simp [getID_eraseEnt, hmap, Function.comp]

theorem internIssue_number (p : Project) (i : Issue) :
    (internIssue p i).2.data.number = i.data.number := by
  simp only [internIssue]

/-! ### Reload round trip (C7) -/

theorem mem_of_mlookup {α : Type} (m : List (Int × α)) (k : Int) (v : α)
    (h : mlookup m k = some v) : (k, v) ∈ m := by
  induction m with
  | nil => cases h
  | cons hd t ih =>
    obtain ⟨k0, v0⟩ := hd
    by_cases hk : k = k0
    · subst hk
      simp only [mlookup, if_pos rfl] at h
      cases h
      exact List.mem_cons_self _ _
    · simp only [mlookup, if_neg hk] at h
      exact List.mem_cons_of_mem _ (ih h)

theorem mlookup_eq_of_mem {α : Type} (m : List (Int × α)) (hnd : (mkeys m).Nodup)
    (k : Int) (v : α) (h : (k, v) ∈ m) : mlookup m k = some v := by
  induction m with
  | nil => cases h
  | cons hd t ih =>
    obtain ⟨k0, v0⟩ := hd
    simp only [mkeys, List.map_cons, List.nodup_cons] at hnd
    rcases List.mem_cons.1 h with h1 | h1
    · cases h1
      simp [mlookup]
    · have hk : k ≠ k0 := by
        intro e; subst e
        exact hnd.1 (List.mem_map.2 ⟨(k, v), h1, rfl⟩)
      simp only [mlookup, if_neg hk]
      exact ih hnd.2 h1

theorem mlookup_none_iff {α : Type} (m : List (Int × α)) (k : Int) :
    mlookup m k = none ↔ k ∉ mkeys m := by
  induction m with
  | nil => simp [mlookup, mkeys]
  | cons hd t ih =>
    obtain ⟨k0, v0⟩ := hd
    by_cases hk : k = k0
    · subst hk
      simp [mlookup, mkeys]
    · simp [mlookup, mkeys, hk, ih]

/-- Under the store hypothesis (each issue's `Number` is set and equals its
key), `saveAll` succeeds and produces one decimally-named file per issue. -/
theorem saveAll_eq (iss : List (Int × Issue))
    (h : ∀ k i, (k, i) ∈ iss → i.data.number = some k) :
    saveAll iss =
      some (iss.map (fun kv => (fileNameOf kv.1, FileData.issueF (eraseIssue kv.2)))) := by
  induction iss with
  | nil => rfl
  | cons kv rest ih =>
    obtain ⟨k, i⟩ := kv
    have hn : i.data.number = some k := h k i (List.mem_cons_self _ _)
    simp only [saveAll, saveIssueFile, hn, List.map_cons]
    rw [ih (fun k' i' hm => h k' i' (List.mem_cons_of_mem _ hm))]
    rfl

/-- Running the per-file loop over the files written for `iss` from a
well-formed store that holds none of those issue numbers yet: it succeeds,
extends the issue map by exactly those numbers, and stores an
observably-equal issue under each. -/
theorem loadFiles_issFiles (iss : List (Int × Issue)) :
    ∀ q : Project, WFp q →
    (∀ k i, (k, i) ∈ iss → i.data.number = some k ∧ k ≠ 0) →
    (mkeys iss).Nodup →
    (∀ k, k ∈ mkeys iss → mlookup q.issues k = none) →
    ∃ q' : Project,
      loadFiles q (iss.map (fun kv => (fileNameOf kv.1, FileData.issueF (eraseIssue kv.2)))) =
        LoadRes.ok q' ∧
      mkeys q'.issues = mkeys q.issues ++ mkeys iss ∧
      (∀ k, k ∉ mkeys iss → mlookup q'.issues k = mlookup q.issues k) ∧
      (∀ k i, (k, i) ∈ iss → ∃ i', mlookup q'.issues k = some i' ∧ issueKey i' = issueKey i) ∧
      q'.owner = q.owner ∧ q'.repo = q.repo ∧ q'.refreshedAt = q.refreshedAt := by
  induction iss with
  | nil =>
    intro q hwf _ _ _
    exact ⟨q, rfl, by simp [mkeys], fun k _ => rfl, fun k i h => absurd h (List.not_mem_nil _),
      rfl, rfl, rfl⟩
  | cons kv rest ih =>
    intro q hwf hnum hnd hfresh
    obtain ⟨k, i⟩ := kv
    simp only [mkeys, List.map_cons, List.nodup_cons] at hnd
    have hkn : i.data.number = some k ∧ k ≠ 0 := hnum k i (List.mem_cons_self _ _)
    have hatoi : goAtoi (fileNameOf k) = k := goAtoi_fileNameOf k
    have hkfresh : mlookup q.issues k = none := hfresh k (by simp [mkeys])
    rcases hr : internIssue q (eraseIssue i) with ⟨r1, i1⟩
    have hnum1 : i1.data.number = some k := by
      have t := internIssue_number q (eraseIssue i)
      rw [hr] at t
      rw [t]
      exact hkn.1
    have hsh : shell r1 = shell q := by
      have t := internIssue_shell q (eraseIssue i); rw [hr] at t; exact t
    have hiss : r1.issues = q.issues := congrArg (fun s => s.2.2.2) hsh
    have hwf1 : WFp r1 := by
      have t := internIssue_wf q (eraseIssue i) hwf; rw [hr] at t; exact t
    have hkey1 : issueKey i1 = issueKey i := by
      have t := internIssue_key q (eraseIssue i) hwf
      rw [hr] at t
      rw [t]
      exact issueKey_eraseIssue i
    have hstep : loadFiles q
        (((k, i) :: rest).map (fun kv => (fileNameOf kv.1, FileData.issueF (eraseIssue kv.2)))) =
        loadFiles ⟨r1.owner, r1.repo, r1.refreshedAt,
                   minsert r1.issues k i1, r1.users, r1.milestones, r1.repos⟩
          (rest.map (fun kv => (fileNameOf kv.1, FileData.issueF (eraseIssue kv.2)))) := by
      simp only [List.map_cons, loadFiles, hatoi, if_neg hkn.2, decodeIssueFile, hr, hnum1]
    have hknotmem : k ∉ mkeys q.issues := (mlookup_none_iff q.issues k).1 hkfresh
    have hq1keys : mkeys (minsert r1.issues k i1) = mkeys q.issues ++ [k] := by
      rw [hiss, mkeys_minsert, if_neg hknotmem]
    have hfresh' : ∀ k', k' ∈ mkeys rest →
        mlookup (minsert r1.issues k i1) k' = none := by
      intro k' hk'
      have hne : k' ≠ k := by
        intro e; subst e
        exact hnd.1 hk'
      rw [mlookup_minsert_of_ne _ _ hne, hiss]
      exact hfresh k' (by simp only [mkeys, List.map_cons, List.mem_cons]; exact Or.inr hk')
    obtain ⟨q', hq'run, hq'keys, hq'frame, hq'mem, ho, hrp, hra⟩ :=
      ih ⟨r1.owner, r1.repo, r1.refreshedAt, minsert r1.issues k i1,
          r1.users, r1.milestones, r1.repos⟩
        hwf1 (fun k' i' hm => hnum k' i' (List.mem_cons_of_mem _ hm)) hnd.2 hfresh'
    refine ⟨q', ?_, ?_, ?_, ?_, ?_, ?_, ?_⟩
    · rw [hstep]; exact hq'run
    · rw [hq'keys]
      show mkeys (minsert r1.issues k i1) ++ mkeys rest = _
      rw [hq1keys, List.append_assoc]
      simp [mkeys]
    · intro k' hk'
      have hk'' : k' ≠ k ∧ k' ∉ mkeys rest := by
        simp only [mkeys, List.map_cons, List.mem_cons] at hk'
        push_neg at hk'
        exact hk'
      rw [hq'frame k' hk''.2]
      show mlookup (minsert r1.issues k i1) k' = _
      rw [mlookup_minsert_of_ne _ _ hk''.1, hiss]
    · intro k' i' hm
      rcases List.mem_cons.1 hm with h1 | h1
      · cases h1
        refine ⟨i1, ?_, hkey1⟩
        rw [hq'frame k hnd.1]
        exact mlookup_minsert_self _ _ _
      · exact hq'mem k' i' h1
    · rw [ho]; exact congrArg (fun s => s.1) hsh
    · rw [hrp]; exact congrArg (fun s => s.2.1) hsh
    · rw [hra]; exact congrArg (fun s => s.2.2.1) hsh

/-- C7 (amended): for every store whose issues map binds each key to an
issue whose `Number` is set, equal to the key, and nonzero, persisting
(metadata plus one file per issue) and then loading into a fresh store
yields the same set of issue numbers, an observably-equal issue under each
number, and the same metadata. -/
theorem persist_load_roundtrip (p p0 : Project)
    (hok : ∀ k i, (k, i) ∈ p.issues → i.data.number = some k ∧ k ≠ 0)
    (hnd : (mkeys p.issues).Nodup)
    (hwf0 : WFp p0) (h0 : p0.issues = []) :
    ∃ dir p',
      persist p = some dir ∧ load dir p0 = LoadRes.ok p' ∧
      mkeys p'.issues = mkeys p.issues ∧
      (∀ k i, mlookup p.issues k = some i →
        ∃ i', mlookup p'.issues k = some i' ∧ IssueEquiv i i') ∧
      p'.owner = p.owner ∧ p'.repo = p.repo ∧ p'.refreshedAt = p.refreshedAt := by
  have hsave := saveAll_eq p.issues (fun k i hm => (hok k i hm).1)
  refine ⟨("meta", FileData.metaF p.owner p.repo p.refreshedAt) ::
    p.issues.map (fun kv => (fileNameOf kv.1, FileData.issueF (eraseIssue kv.2))), ?_⟩
  have hfresh : ∀ k, k ∈ mkeys p.issues →
      mlookup (⟨p.owner, p.repo, p.refreshedAt, p0.issues, p0.users, p0.milestones,
        p0.repos⟩ : Project).issues k = none := by
    intro k _
    show mlookup p0.issues k = none
    rw [h0]
    rfl
  obtain ⟨q', hrun, hkeys, _, hmem, ho, hrp, hra⟩ :=
    loadFiles_issFiles p.issues
      ⟨p.owner, p.repo, p.refreshedAt, p0.issues, p0.users, p0.milestones, p0.repos⟩
      hwf0 hok hnd hfresh
  refine ⟨q', ?_, ?_, ?_, ?_, ho, hrp, hra⟩
  · simp only [persist, hsave]
    rfl
  · have hmeta0 : goAtoi "meta" = 0 := by decide
    simp only [load, loadMeta, dlookup, eq_self_iff_true, if_true, loadFiles, hmeta0]
    exact hrun
  · rw [hkeys]
    show mkeys p0.issues ++ mkeys p.issues = mkeys p.issues
    rw [h0]
    rfl
  · intro k i hl
    obtain ⟨i', hi1, hi2⟩ := hmem k i (mem_of_mlookup _ _ _ hl)
    exact ⟨i', hi1, hi2.symm⟩

/-- A fresh store (what `makeProject` builds, before `load`). -/
def P0e : Project := ⟨"x", "y", 0, [], [], [], []⟩

/-- A store with one issue, #7, authored by user 3. -/
def Pc : Project :=
  ⟨"own", "rep", 5,
   [(7, ⟨⟨some 7, some "t", some ⟨1, 3⟩, none, none, [], none, none, false, none, none⟩,
     [], []⟩)], [], [], []⟩

theorem WFp_P0e : WFp P0e :=
  ⟨fun k e h => by simp [mlookup] at h, fun k e h => by simp [mlookup] at h,
   fun k e h => by simp [mlookup] at h⟩

/-- Witness for `persist_load_roundtrip` at a one-issue store. -/
theorem persist_load_roundtrip_witness :
    ∃ dir p',
      persist Pc = some dir ∧ load dir P0e = LoadRes.ok p' ∧
      mkeys p'.issues = mkeys Pc.issues ∧
      (∀ k i, mlookup Pc.issues k = some i →
        ∃ i', mlookup p'.issues k = some i' ∧ IssueEquiv i i') ∧
      p'.owner = Pc.owner ∧ p'.repo = Pc.repo ∧ p'.refreshedAt = Pc.refreshedAt := by
  apply persist_load_roundtrip Pc P0e
  · intro k i hm
    simp only [Pc, List.mem_singleton, Prod.mk.injEq] at hm
    obtain ⟨hk, hi⟩ := hm
    subst hk
    subst hi
    exact ⟨rfl, by decide⟩
  · decide
  · exact WFp_P0e
  · rfl

/-- An issue whose `Number` is the integer zero. -/
def zIssue : Issue :=
  ⟨⟨some 0, none, none, none, none, [], none, none, false, none, none⟩, [], []⟩

/-- A store holding `zIssue` under key 0 (a state the claim quantifies
over: it says *every* Entity Store state round-trips). -/
def Pz : Project := ⟨"o", "r", 0, [(0, zIssue)], [], [], []⟩

/-- C7 counterexample: persisting a store holding an issue whose `Number`
is 0 writes the file `"0"`, which `load` then skips (`Atoi` yields 0), so
the reloaded issue set is empty, not equivalent: the claim fails as stated
for this Entity Store state. -/
theorem roundtrip_counterexample :
    persist Pz = some [("meta", FileData.metaF "o" "r" 0), ("0", FileData.issueF zIssue)] ∧
    load [("meta", FileData.metaF "o" "r" 0), ("0", FileData.issueF zIssue)] P0e =
      LoadRes.ok ⟨"o", "r", 0, [], [], [], []⟩ ∧
    mlookup Pz.issues 0 = some zIssue := by
  refine ⟨?_, ?_, ?_⟩ <;> decide

/-! ### Cache-load file selection (C8) and inner-number keying (C10) -/

/-- An issue whose `Number` is −1, matching a file named `"-1"`. -/
def negIssue : Issue :=
  ⟨⟨some (-1), none, none, none, none, [], none, none, false, none, none⟩, [], []⟩

/-- C8 counterexample: a file named `"-1"` does not parse as a positive
integer, yet `load` deserializes, interns and inserts it (Go's
`strconv.Atoi` accepts a sign, and the code only skips when the parsed
value is 0): the Entity Store is changed by that file. -/
theorem load_selection_counterexample :
    load [("-1", FileData.issueF negIssue)] P0e =
      LoadRes.ok ⟨"x", "y", 0, [((-1 : Int), negIssue)], [], [], []⟩ ∧
    goAtoi "-1" = -1 ∧ P0e.issues = [] := by
  refine ⟨?_, ?_, ?_⟩ <;> decide

/-- C8 (amended): `load` reads the metadata file if present and its absence
is not an error; the per-file loop processes exactly those files whose name
`strconv.Atoi`-parses to a *nonzero* integer (positive or negative) —
deserializing, interning and inserting each — and skips every file whose
name fails to parse or parses to zero, leaving the store unchanged by that
file; an empty cache directory loads successfully. -/
theorem load_file_selection :
    (∀ (p : Project) (name : String) (content : FileData) (rest : List (String × FileData)),
      goAtoi name = 0 → loadFiles p ((name, content) :: rest) = loadFiles p rest) ∧
    (∀ (p : Project) (name : String) (i : Issue) (num : Int) (rest : List (String × FileData)),
      goAtoi name ≠ 0 → i.data.number = some num →
      loadFiles p ((name, FileData.issueF i) :: rest) =
        loadFiles ⟨(internIssue p i).1.owner, (internIssue p i).1.repo,
                   (internIssue p i).1.refreshedAt,
                   minsert (internIssue p i).1.issues num (internIssue p i).2,
                   (internIssue p i).1.users, (internIssue p i).1.milestones,
                   (internIssue p i).1.repos⟩ rest) ∧
    (∀ (dir : List (String × FileData)) (p : Project),
      dlookup dir "meta" = none → loadMeta dir p = Except.ok p) ∧
    (∀ p : Project, load [] p = LoadRes.ok p) := by
  refine ⟨?_, ?_, ?_, ?_⟩
  · intro p name content rest h
    simp only [loadFiles, h, if_pos]
  · intro p name i num rest h hnum
    have hn : (internIssue p i).2.data.number = some num := by
      rw [internIssue_number]; exact hnum
    simp only [loadFiles, if_neg h, decodeIssueFile, hn]
  · intro dir p h
    simp only [loadMeta, h]
  · intro p
    rfl

/-- Witness for `load_file_selection`: the `meta` file is skipped by the
numeric loop, a missing metadata file is no error, an empty directory
loads. -/
theorem load_file_selection_witness :
    loadFiles P0e [("meta", FileData.badJSON)] = loadFiles P0e [] ∧
    loadFiles P0e [("5", FileData.issueF negIssue)] =
      loadFiles ⟨(internIssue P0e negIssue).1.owner, (internIssue P0e negIssue).1.repo,
                 (internIssue P0e negIssue).1.refreshedAt,
                 minsert (internIssue P0e negIssue).1.issues (-1) (internIssue P0e negIssue).2,
                 (internIssue P0e negIssue).1.users, (internIssue P0e negIssue).1.milestones,
                 (internIssue P0e negIssue).1.repos⟩ [] ∧
    loadMeta [] P0e = Except.ok P0e ∧
    load [] P0e = LoadRes.ok P0e :=
  ⟨load_file_selection.1 P0e "meta" FileData.badJSON [] (by decide),
   load_file_selection.2.1 P0e "5" negIssue (-1) [] (by decide) rfl,
   load_file_selection.2.2.1 [] P0e rfl,
   load_file_selection.2.2.2 P0e⟩

/-- An issue record carrying no `Number` (as decoded from a numeric-named
file whose JSON has no `number` field). -/
def noNumIssue : Issue :=
  ⟨⟨none, some "t", none, none, none, [], none, none, false, none, none⟩, [], []⟩

/-- C10: `load` inserts each deserialized issue under the `Number` found
*inside* the file (not the file's name), silently overwriting whatever the
store held under that number; and it dereferences `*i.Number`
unconditionally, so a numeric-named file whose JSON parses but carries no
`Number` crashes with a nil-pointer panic — a distinct outcome from the
documented `log.Fatal` cache-corruption path. -/
theorem load_inner_number_semantics :
    (∀ (p : Project) (name : String) (i : Issue) (num : Int) (rest : List (String × FileData)),
      goAtoi name ≠ 0 → i.data.number = some num →
      loadFiles p ((name, FileData.issueF i) :: rest) =
        loadFiles ⟨(internIssue p i).1.owner, (internIssue p i).1.repo,
                   (internIssue p i).1.refreshedAt,
                   minsert (internIssue p i).1.issues num (internIssue p i).2,
                   (internIssue p i).1.users, (internIssue p i).1.milestones,
                   (internIssue p i).1.repos⟩ rest) ∧
    (∀ (m : List (Int × Issue)) (num : Int) (j : Issue),
      mlookup (minsert m num j) num = some j) ∧
    (∀ (p : Project) (name : String) (i : Issue) (rest : List (String × FileData)),
      goAtoi name ≠ 0 → i.data.number = none →
      loadFiles p ((name, FileData.issueF i) :: rest) = LoadRes.nilPanic) ∧
    LoadRes.nilPanic ≠ LoadRes.fatalErr := by
  refine ⟨?_, ?_, ?_, by decide⟩
  · intro p name i num rest h hnum
    have hn : (internIssue p i).2.data.number = some num := by
      rw [internIssue_number]; exact hnum
    simp only [loadFiles, if_neg h, decodeIssueFile, hn]
  · intro m num j
    exact mlookup_minsert_self m num j
  · intro p name i rest h hnum
    have hn : (internIssue p i).2.data.number = none := by
      rw [internIssue_number]; exact hnum
    simp only [loadFiles, if_neg h, decodeIssueFile, hn]

/-- Witness for `load_inner_number_semantics`: the file named `"5"` whose
content has `Number` −1 is stored under −1; a numeric file without a
`Number` panics. -/
theorem load_inner_number_semantics_witness :
    loadFiles P0e [("5", FileData.issueF noNumIssue)] = LoadRes.nilPanic ∧
    mlookup (minsert P0e.issues (-1) negIssue) (-1) = some negIssue ∧
    loadFiles P0e [("7", FileData.issueF negIssue)] =
      loadFiles ⟨(internIssue P0e negIssue).1.owner, (internIssue P0e negIssue).1.repo,
                 (internIssue P0e negIssue).1.refreshedAt,
                 minsert (internIssue P0e negIssue).1.issues (-1) (internIssue P0e negIssue).2,
                 (internIssue P0e negIssue).1.users, (internIssue P0e negIssue).1.milestones,
                 (internIssue P0e negIssue).1.repos⟩ [] :=
  ⟨load_inner_number_semantics.2.2.1 P0e "5" noNumIssue [] (by decide) rfl,
   load_inner_number_semantics.2.1 P0e.issues (-1) negIssue,
   load_inner_number_semantics.1 P0e "7" negIssue (-1) [] (by decide) rfl⟩

/-! ### Sync orchestrator (C3-C6) -/

/-- Externally observable actions of `refresh`, in program order. -/
inductive Event where
  | listIssuesReq (page : Nat)
  | sleep (secs : Nat)
  | commitsReq (num : Int) (page : Nat)
  | timelineReq (num : Int) (page : Nat)
  | saveMeta
  | saveIssue (num : Int)
deriving DecidableEq, Repr

/-- The external paginated listing API (spec §6).  Each endpoint is a
deterministic oracle over the global request counter (so that transient
failures are expressible) and the request parameters, returning the items
and the response's `NextPage`, or an error. -/
structure Client where
  listIssues : Nat → Nat → Except Unit (List IssueData × Nat)
  listCommits : Nat → Int → Nat → Except Unit (List Commit × Nat)
  listTimeline : Nat → Int → Nat → Except Unit (List TimelineEvent × Nat)

/-- Orchestrator state: the store, the count of requests issued so far,
and the trace of observable actions. -/
structure RState where
  proj : Project
  tick : Nat
  trace : List Event
deriving DecidableEq, Repr

/-- Outcome of a loop or run: normal completion, `log.Fatal`, nil-pointer
panic, or out of fuel (the modelled loop has not terminated within the
given bound). -/
inductive Res where
  | ok (st : RState)
  | fatal (st : RState)
  | crashed (st : RState)
  | spin
deriving DecidableEq, Repr

/-- The state carried by any outcome that is not fuel exhaustion. -/
def resState : Res → Option RState
  | .ok st => some st
  | .fatal st => some st
  | .crashed st => some st
  | .spin => none

/-- Sequencing that propagates fatal/crash/spin outcomes. -/
def bindRes (r : Res) (f : RState → Res) : Res :=
  match r with
  | .ok st => f st
  | other => other

/-- The per-page store update of Phase A (main.go:172-181): every listed
issue overwrites (or creates) the record under its number, with Timeline
and Commits cleared; `none` models the `*issue.Number` nil dereference. -/
def storeListed (p : Project) : List IssueData → Option Project
  | [] => some p
  | d :: rest =>
    match d.number with
    | none => none
    | some n =>
      storeListed ⟨p.owner, p.repo, p.refreshedAt, minsert p.issues n ⟨d, [], []⟩,
                   p.users, p.milestones, p.repos⟩ rest

/-- Phase A (main.go:151-187): paginated incremental issue listing.  An
errored request is logged, slept on for 5 seconds and retried at the same
page; a successful page updates the store, and the loop breaks when the
reported `NextPage` is strictly less than the page just requested,
otherwise the next request uses the reported next page. -/
def phaseALoop (c : Client) : Nat → Nat → RState → Res
  | 0, _, _ => .spin
  | fuel + 1, page, st =>
    match c.listIssues st.tick page with
    | .error _ =>
      phaseALoop c fuel page
        ⟨st.proj, st.tick + 1, st.trace ++ [.listIssuesReq page, .sleep 5]⟩
    | .ok (items, next) =>
      match storeListed st.proj items with
      | none => .crashed ⟨st.proj, st.tick + 1, st.trace ++ [.listIssuesReq page]⟩
      | some p1 =>
        if next < page then .ok ⟨p1, st.tick + 1, st.trace ++ [.listIssuesReq page]⟩
        else phaseALoop c fuel next ⟨p1, st.tick + 1, st.trace ++ [.listIssuesReq page]⟩

/-- `i.Commits = append(i.Commits, commits...)` on the stored issue. -/
def appendCommits (p : Project) (num : Int) (cs : List Commit) : Project :=
  match mlookup p.issues num with
  | none => p
  | some i =>
    ⟨p.owner, p.repo, p.refreshedAt,
     minsert p.issues num ⟨i.data, i.timeline, i.commits ++ cs⟩,
     p.users, p.milestones, p.repos⟩

/-- `i.Timeline = append(i.Timeline, timeline...)` on the stored issue. -/
def appendTimeline (p : Project) (num : Int) (ts : List TimelineEvent) : Project :=
  match mlookup p.issues num with
  | none => p
  | some i =>
    ⟨p.owner, p.repo, p.refreshedAt,
     minsert p.issues num ⟨i.data, i.timeline ++ ts, i.commits⟩,
     p.users, p.milestones, p.repos⟩

/-- The commit-listing loop of Phase B (main.go:201-218): a fetch error is
fatal; pages accumulate into `Commits`; break when `NextPage < page`. -/
def commitsLoop (c : Client) (num : Int) : Nat → Nat → RState → Res
  | 0, _, _ => .spin
  | fuel + 1, page, st =>
    match c.listCommits st.tick num page with
    | .error _ => .fatal ⟨st.proj, st.tick + 1, st.trace ++ [.commitsReq num page]⟩
    | .ok (cs, next) =>
      if next < page then
        .ok ⟨appendCommits st.proj num cs, st.tick + 1, st.trace ++ [.commitsReq num page]⟩
      else
        commitsLoop c num fuel next
          ⟨appendCommits st.proj num cs, st.tick + 1, st.trace ++ [.commitsReq num page]⟩

/-- The timeline-listing loop of Phase B (main.go:221-238): a fetch error
is fatal; pages accumulate into `Timeline`; break when `NextPage < page`. -/
def timelineLoop (c : Client) (num : Int) : Nat → Nat → RState → Res
  | 0, _, _ => .spin
  | fuel + 1, page, st =>
    match c.listTimeline st.tick num page with
    | .error _ => .fatal ⟨st.proj, st.tick + 1, st.trace ++ [.timelineReq num page]⟩
    | .ok (ts, next) =>
      if next < page then
        .ok ⟨appendTimeline st.proj num ts, st.tick + 1, st.trace ++ [.timelineReq num page]⟩
      else
        timelineLoop c num fuel next
          ⟨appendTimeline st.proj num ts, st.tick + 1, st.trace ++ [.timelineReq num page]⟩

/-- One iteration of the Phase B issue loop (main.go:196-245): fetch
commits when the issue is a PR with nil Commits, fetch the timeline when
it is nil, and when anything changed re-intern the issue and save it
(the file is named by `*i.Number`). -/
def phaseBIssue (c : Client) (fuel : Nat) (num : Int) (st : RState) : Res :=
  match mlookup st.proj.issues num with
  | none => .crashed st
  | some i0 =>
    bindRes (if i0.data.pullRequestLinks && i0.commits.isEmpty
             then commitsLoop c num fuel 1 st else .ok st) (fun st1 =>
      match mlookup st1.proj.issues num with
      | none => .crashed st1
      | some i1 =>
        bindRes (if i1.timeline.isEmpty then timelineLoop c num fuel 1 st1 else .ok st1)
          (fun st2 =>
            if (i0.data.pullRequestLinks && i0.commits.isEmpty) || i1.timeline.isEmpty then
              match mlookup st2.proj.issues num with
              | none => .crashed st2
              | some i2 =>
                let r := internIssue st2.proj i2
                match r.2.data.number with
                | none => .crashed st2
                | some n =>
                  .ok ⟨⟨r.1.owner, r.1.repo, r.1.refreshedAt, minsert r.1.issues num r.2,
                        r.1.users, r.1.milestones, r.1.repos⟩,
                       st2.tick, st2.trace ++ [.saveIssue n]⟩
            else .ok st2))

/-- Phase B over a list of issue numbers, aborting on the first
non-ok outcome. -/
def phaseBList (c : Client) (fuel : Nat) : List Int → RState → Res
  | [], st => .ok st
  | num :: rest, st => bindRes (phaseBIssue c fuel num st) (phaseBList c fuel rest)

/-- Ascending insertion (`sort.Ints` model). -/
def insertAsc (x : Int) : List Int → List Int
  | [] => [x]
  | y :: ys => if x ≤ y then x :: y :: ys else y :: insertAsc x ys

def sortInts : List Int → List Int
  | [] => []
  | x :: xs => insertAsc x (sortInts xs)

/-- `Project.sortedIssues` (main.go:250-257): the issue numbers in
ascending order. -/
def sortedIssues (p : Project) : List Int := sortInts (mkeys p.issues)

/-- `Project.refresh` (main.go:139-248): Phase A from page 1; on its
completion `RefreshedAt := start` (the wall-clock reading taken at line
150, before the first page request) and the metadata is saved; then Phase
B walks the issue numbers in descending order.  `fuel` bounds the
modelled loops. -/
def refresh (c : Client) (start : Int) (fuel : Nat) (p : Project) : Res :=
  bindRes (phaseALoop c fuel 1 ⟨p, 0, []⟩) (fun st1 =>
    phaseBList c fuel (sortedIssues st1.proj).reverse
      ⟨⟨st1.proj.owner, st1.proj.repo, start, st1.proj.issues, st1.proj.users,
        st1.proj.milestones, st1.proj.repos⟩,
       st1.tick, st1.trace ++ [.saveMeta]⟩)

/-- Events Phase A can emit. -/
def isAEvent : Event → Bool
  | .listIssuesReq _ => true
  | .sleep _ => true
  | _ => false

/-- Events Phase B can emit. -/
def isBEvent : Event → Bool
  | .commitsReq _ _ => true
  | .timelineReq _ _ => true
  | .saveIssue _ => true
  | _ => false

/-- Events the Phase B visit of issue `num` can emit. -/
def isVisitEvent (num : Int) : Event → Bool
  | .commitsReq n _ => n == num
  | .timelineReq n _ => n == num
  | .saveIssue _ => true
  | _ => false

/-- A server that always reports `NextPage = 1` for the issue listing. -/
def cexClient : Client :=
  ⟨fun _ _ => .ok ([], 1), fun _ _ _ => .ok ([], 0), fun _ _ _ => .ok ([], 0)⟩

/-- A server whose every listing answers one final page (`NextPage = 0`). -/
def cW : Client :=
  ⟨fun _ _ => .ok ([], 0), fun _ _ _ => .ok ([], 0), fun _ _ _ => .ok ([], 0)⟩

/-- C3 counterexample: the first response to page 1 reports next page 1 —
not strictly greater than the page just requested, so by the claim the
loop must terminate — yet the loop keeps requesting (the code breaks only
on `NextPage < page`), exhausting any fuel instead of completing. -/
theorem pagination_equal_next_counterexample :
    cexClient.listIssues 0 1 = Except.ok ([], 1) ∧
    phaseALoop cexClient 5 1 ⟨P0e, 0, []⟩ = Res.spin ∧
    phaseALoop cexClient 1 1 ⟨P0e, 0, []⟩ =
      phaseALoop cexClient 0 1 ⟨P0e, 1, [Event.listIssuesReq 1]⟩ := by
  refine ⟨rfl, by decide, by decide⟩

/-- C3 (amended): in each of the three paginated fetch loops a successful
response makes the loop terminate exactly when the reported next page is
*strictly less* than the page just requested; otherwise — including a next
page equal to the requested page — the loop continues and the next request
uses the reported next page. -/
theorem pagination_break_lt :
    (∀ (c : Client) (fuel page : Nat) (st : RState) (items : List IssueData) (next : Nat)
       (p1 : Project),
      c.listIssues st.tick page = Except.ok (items, next) →
      storeListed st.proj items = some p1 →
      (next < page →
        phaseALoop c (fuel + 1) page st =
          Res.ok ⟨p1, st.tick + 1, st.trace ++ [Event.listIssuesReq page]⟩) ∧
      (¬next < page →
        phaseALoop c (fuel + 1) page st =
          phaseALoop c fuel next ⟨p1, st.tick + 1, st.trace ++ [Event.listIssuesReq page]⟩)) ∧
    (∀ (c : Client) (num : Int) (fuel page : Nat) (st : RState) (cs : List Commit)
       (next : Nat),
      c.listCommits st.tick num page = Except.ok (cs, next) →
      (next < page →
        commitsLoop c num (fuel + 1) page st =
          Res.ok ⟨appendCommits st.proj num cs, st.tick + 1,
                  st.trace ++ [Event.commitsReq num page]⟩) ∧
      (¬next < page →
        commitsLoop c num (fuel + 1) page st =
          commitsLoop c num fuel next
            ⟨appendCommits st.proj num cs, st.tick + 1,
             st.trace ++ [Event.commitsReq num page]⟩)) ∧
    (∀ (c : Client) (num : Int) (fuel page : Nat) (st : RState) (ts : List TimelineEvent)
       (next : Nat),
      c.listTimeline st.tick num page = Except.ok (ts, next) →
      (next < page →
        timelineLoop c num (fuel + 1) page st =
          Res.ok ⟨appendTimeline st.proj num ts, st.tick + 1,
                  st.trace ++ [Event.timelineReq num page]⟩) ∧
      (¬next < page →
        timelineLoop c num (fuel + 1) page st =
          timelineLoop c num fuel next
            ⟨appendTimeline st.proj num ts, st.tick + 1,
             st.trace ++ [Event.timelineReq num page]⟩)) := by
  refine ⟨?_, ?_, ?_⟩
  · intro c fuel page st items next p1 hc hs
    constructor
    · intro hlt
      simp only [phaseALoop, hc, hs, if_pos hlt]
    · intro hge
      simp only [phaseALoop, hc, hs, if_neg hge]
  · intro c num fuel page st cs next hc
    constructor
    · intro hlt
      simp only [commitsLoop, hc, if_pos hlt]
    · intro hge
      simp only [commitsLoop, hc, if_neg hge]
  · intro c num fuel page st ts next hc
    constructor
    · intro hlt
      simp only [timelineLoop, hc, if_pos hlt]
    · intro hge
      simp only [timelineLoop, hc, if_neg hge]

/-- Witness for `pagination_break_lt`: a final page (next 0 < page 1)
terminates the issue-listing loop; an equal next page re-requests page 1. -/
theorem pagination_break_lt_witness :
    phaseALoop cW 2 1 ⟨P0e, 0, []⟩ =
      Res.ok ⟨P0e, 1, [Event.listIssuesReq 1]⟩ ∧
    phaseALoop cexClient 1 1 ⟨P0e, 0, []⟩ =
      phaseALoop cexClient 0 1 ⟨P0e, 1, [Event.listIssuesReq 1]⟩ :=
  ⟨(pagination_break_lt.1 cW 1 1 ⟨P0e, 0, []⟩ [] 0 P0e rfl rfl).1 (by decide),
   (pagination_break_lt.1 cexClient 0 1 ⟨P0e, 0, []⟩ [] 1 P0e rfl rfl).2 (by decide)⟩

/-- `e` is a commit-listing request for issue `num`. -/
def isCommitsReqFor (num : Int) : Event → Bool
  | .commitsReq n _ => n == num
  | _ => false

/-- `e` is a timeline-listing request for issue `num`. -/
def isTimelineReqFor (num : Int) : Event → Bool
  | .timelineReq n _ => n == num
  | _ => false

/-- `e` is an issue save. -/
def isSaveEvent : Event → Bool
  | .saveIssue _ => true
  | _ => false

/-- Invariant of one Phase B step for issue `num`: the watermark is
untouched, no other issue's record changes, and the trace grows by events
satisfying `S`. -/
def VisitInv (num : Int) (S : Event → Bool) (st st' : RState) : Prop :=
  st'.proj.refreshedAt = st.proj.refreshedAt ∧
  (∀ k, k ≠ num → mlookup st'.proj.issues k = mlookup st.proj.issues k) ∧
  ∃ t, st'.trace = st.trace ++ t ∧ ∀ e ∈ t, S e = true

theorem VisitInv_refl (num : Int) (S : Event → Bool) (st : RState) : VisitInv num S st st :=
  ⟨rfl, fun _ _ => rfl, [], by simp, by simp⟩

theorem VisitInv_mono {num : Int} {S S' : Event → Bool} {st st' : RState}
    (hS : ∀ e, S e = true → S' e = true) (h : VisitInv num S st st') :
    VisitInv num S' st st' := by
  obtain ⟨h1, h2, t, ht, hev⟩ := h
  exact ⟨h1, h2, t, ht, fun e he => hS e (hev e he)⟩

theorem VisitInv_trans {num : Int} {S : Event → Bool} {st1 st2 st3 : RState}
    (h12 : VisitInv num S st1 st2) (h23 : VisitInv num S st2 st3) :
    VisitInv num S st1 st3 := by
  obtain ⟨a1, a2, t1, ht1, he1⟩ := h12
  obtain ⟨b1, b2, t2, ht2, he2⟩ := h23
  refine ⟨b1.trans a1, fun k hk => (b2 k hk).trans (a2 k hk), t1 ++ t2, ?_, ?_⟩
  · rw [ht2, ht1, List.append_assoc]
  · intro e he
    rcases List.mem_append.1 he with h | h
    · exact he1 e h
    · exact he2 e h

/-- Composition of a `Res` step with a continuation, each preserving the
visit invariant. -/
theorem bindRes_inv {num : Int} {S : Event → Bool} {r : Res} {f : RState → Res} {st : RState}
    (h1 : ∀ st', resState r = some st' → VisitInv num S st st')
    (h2 : ∀ st1, r = Res.ok st1 → ∀ st', resState (f st1) = some st' → VisitInv num S st1 st') :
    ∀ st', resState (bindRes r f) = some st' → VisitInv num S st st' := by
  intro st' h
  cases r with
  | ok st1 =>
    exact VisitInv_trans (h1 st1 rfl) (h2 st1 rfl st' h)
  | fatal stf => exact h1 st' (by simpa [bindRes, resState] using h)
  | crashed stf => exact h1 st' (by simpa [bindRes, resState] using h)
  | spin => simp [bindRes, resState] at h

theorem appendCommits_refreshedAt (p : Project) (num : Int) (cs : List Commit) :
    (appendCommits p num cs).refreshedAt = p.refreshedAt := by
  unfold appendCommits
  cases mlookup p.issues num <;> rfl

theorem appendCommits_frame (p : Project) (num : Int) (cs : List Commit) (k : Int)
    (hk : k ≠ num) : mlookup (appendCommits p num cs).issues k = mlookup p.issues k := by
  unfold appendCommits
  cases mlookup p.issues num with
  | none => rfl
  | some i => exact mlookup_minsert_of_ne _ _ hk

theorem appendCommits_timeline (p : Project) (num : Int) (cs : List Commit) :
    Option.map Issue.timeline (mlookup (appendCommits p num cs).issues num) =
      Option.map Issue.timeline (mlookup p.issues num) := by
  unfold appendCommits
  cases hl : mlookup p.issues num with
  | none => rw [hl]
  | some i => rw [mlookup_minsert_self]; rfl

theorem appendTimeline_refreshedAt (p : Project) (num : Int) (ts : List TimelineEvent) :
    (appendTimeline p num ts).refreshedAt = p.refreshedAt := by
  unfold appendTimeline
  cases mlookup p.issues num <;> rfl

theorem appendTimeline_frame (p : Project) (num : Int) (ts : List TimelineEvent) (k : Int)
    (hk : k ≠ num) : mlookup (appendTimeline p num ts).issues k = mlookup p.issues k := by
  unfold appendTimeline
  cases mlookup p.issues num with
  | none => rfl
  | some i => exact mlookup_minsert_of_ne _ _ hk

/-- The commit-listing loop preserves the visit invariant (emitting only
commit requests for `num`) and never touches any issue's Timeline. -/
theorem commitsLoop_inv (c : Client) (num : Int) :
    ∀ (fuel page : Nat) (st st' : RState),
      resState (commitsLoop c num fuel page st) = some st' →
      VisitInv num (isCommitsReqFor num) st st' ∧
      Option.map Issue.timeline (mlookup st'.proj.issues num) =
        Option.map Issue.timeline (mlookup st.proj.issues num) := by
  intro fuel
  induction fuel with
  | zero => intro page st st' h; simp [commitsLoop, resState] at h
  | succ fuel ih =>
    intro page st st' h
    rcases hc : c.listCommits st.tick num page with e | pr
    · simp only [commitsLoop, hc, resState] at h
      cases h
      exact ⟨⟨rfl, fun _ _ => rfl, [Event.commitsReq num page], rfl,
        by simp [isCommitsReqFor]⟩, rfl⟩
    · obtain ⟨cs, next⟩ := pr
      simp only [commitsLoop, hc] at h
      by_cases hlt : next < page
      · rw [if_pos hlt] at h
        simp only [resState] at h
        cases h
        exact ⟨⟨appendCommits_refreshedAt _ _ _,
          fun k hk => appendCommits_frame _ _ _ k hk,
          [Event.commitsReq num page], rfl, by simp [isCommitsReqFor]⟩,
          appendCommits_timeline _ _ _⟩
      · rw [if_neg hlt] at h
        obtain ⟨⟨h1, h2, t, ht, hev⟩, htl⟩ := ih next _ st' h
        refine ⟨⟨h1.trans (appendCommits_refreshedAt _ _ _),
          fun k hk => (h2 k hk).trans (appendCommits_frame _ _ _ k hk),
          Event.commitsReq num page :: t, ?_, ?_⟩,
          htl.trans (appendCommits_timeline _ _ _)⟩
        · rw [ht]
          simp
        · intro e he
          rcases List.mem_cons.1 he with h | h
          · subst h; simp [isCommitsReqFor]
          · exact hev e h

/-- The timeline-listing loop preserves the visit invariant, emitting only
timeline requests for `num`. -/
theorem timelineLoop_inv (c : Client) (num : Int) :
    ∀ (fuel page : Nat) (st st' : RState),
      resState (timelineLoop c num fuel page st) = some st' →
      VisitInv num (isTimelineReqFor num) st st' := by
  intro fuel
  induction fuel with
  | zero => intro page st st' h; simp [timelineLoop, resState] at h
  | succ fuel ih =>
    intro page st st' h
    rcases hc : c.listTimeline st.tick num page with e | pr
    · simp only [timelineLoop, hc, resState] at h
      cases h
      exact ⟨rfl, fun _ _ => rfl, [Event.timelineReq num page], rfl,
        by simp [isTimelineReqFor]⟩
    · obtain ⟨ts, next⟩ := pr
      simp only [timelineLoop, hc] at h
      by_cases hlt : next < page
      · rw [if_pos hlt] at h
        simp only [resState] at h
        cases h
        exact ⟨appendTimeline_refreshedAt _ _ _,
          fun k hk => appendTimeline_frame _ _ _ k hk,
          [Event.timelineReq num page], rfl, by simp [isTimelineReqFor]⟩
      · rw [if_neg hlt] at h
        obtain ⟨h1, h2, t, ht, hev⟩ := ih next _ st' h
        refine ⟨h1.trans (appendTimeline_refreshedAt _ _ _),
          fun k hk => (h2 k hk).trans (appendTimeline_frame _ _ _ k hk),
          Event.timelineReq num page :: t, ?_, ?_⟩
        · rw [ht]
          simp
        · intro e he
          rcases List.mem_cons.1 he with h | h
          · subst h; simp [isTimelineReqFor]
          · exact hev e h

theorem visit_of_commitsReqFor (num : Int) (e : Event)
    (h : isCommitsReqFor num e = true) : isVisitEvent num e = true := by
  cases e <;> simpa [isCommitsReqFor, isVisitEvent] using h

theorem visit_of_timelineReqFor (num : Int) (e : Event)
    (h : isTimelineReqFor num e = true) : isVisitEvent num e = true := by
  cases e <;> simpa [isTimelineReqFor, isVisitEvent] using h

/-- Master invariant of one Phase B visit of issue `num`: the watermark
and every other issue are untouched; the trace grows only by this visit's
events; a fatal outcome never saved the in-flight issue; and a visit whose
Timeline (resp. Commits, for a PR) was already non-empty at its start
performs no timeline-listing (resp. commit-listing) request. -/
theorem phaseBIssue_master (c : Client) (fuel : Nat) (num : Int) (st : RState)
    (r : Res) (h : phaseBIssue c fuel num st = r) (st' : RState)
    (hst : resState r = some st') :
    st'.proj.refreshedAt = st.proj.refreshedAt ∧
    (∀ k, k ≠ num → mlookup st'.proj.issues k = mlookup st.proj.issues k) ∧
    ∃ t, st'.trace = st.trace ++ t ∧
      (∀ e ∈ t, isVisitEvent num e = true) ∧
      (r = Res.fatal st' → ∀ m, Event.saveIssue m ∉ t) ∧
      (∀ i0, mlookup st.proj.issues num = some i0 → i0.timeline ≠ [] →
        ∀ pg, Event.timelineReq num pg ∉ t) ∧
      (∀ i0, mlookup st.proj.issues num = some i0 → i0.commits ≠ [] →
        ∀ pg, Event.commitsReq num pg ∉ t) := by
  unfold phaseBIssue at h
  rcases hl0 : mlookup st.proj.issues num with _ | i0
  · simp only [hl0] at h
    subst h
    simp only [resState] at hst
    cases hst
    exact ⟨rfl, fun _ _ => rfl, [], by simp, by simp, by simp, by simp, by simp⟩
  · simp only [hl0] at h
    by_cases hdoC : (i0.data.pullRequestLinks && i0.commits.isEmpty) = true
    · -- commits loop runs
      rw [if_pos hdoC] at h
      have hcne : i0.commits = [] := by
        have hdoC2 := hdoC
        rw [Bool.and_eq_true] at hdoC2
        exact List.isEmpty_iff.1 hdoC2.2
      cases hrC : commitsLoop c num fuel 1 st with
      | ok st1 =>
        rw [hrC] at h
        simp only [bindRes] at h
        obtain ⟨⟨c1, c2, t1, ht1, hev1⟩, htl1⟩ :=
          commitsLoop_inv c num fuel 1 st st1 (by rw [hrC]; rfl)
        rw [hl0] at htl1
        rcases hl1 : mlookup st1.proj.issues num with _ | i1
        · rw [hl1] at htl1; cases htl1
        · rw [hl1] at htl1
          have htl1' : i1.timeline = i0.timeline := by
            simpa using htl1
          simp only [hl1] at h
          by_cases hdoT : i1.timeline.isEmpty = true
          · -- timeline loop runs too: i0.timeline must be empty
            have htle : i0.timeline = [] := by
              rw [← htl1']
              exact List.isEmpty_iff.1 hdoT
            rw [if_pos hdoT] at h
            cases hrT : timelineLoop c num fuel 1 st1 with
            | ok st2 =>
              rw [hrT] at h
              simp only [bindRes] at h
              obtain ⟨d1, d2, t2, ht2, hev2⟩ :=
                timelineLoop_inv c num fuel 1 st1 st2 (by rw [hrT]; rfl)
              rw [if_pos (by simp [hdoC, hdoT])] at h
              rcases hl2 : mlookup st2.proj.issues num with _ | i2
              · simp only [hl2] at h
                subst h
                simp only [resState] at hst
                cases hst
                refine ⟨d1.trans c1, fun k hk => (d2 k hk).trans (c2 k hk),
                  t1 ++ t2, by rw [ht2, ht1, List.append_assoc], ?_, by simp, ?_, ?_⟩
                · intro e he
                  rcases List.mem_append.1 he with hm | hm
                  · exact visit_of_commitsReqFor num e (hev1 e hm)
                  · exact visit_of_timelineReqFor num e (hev2 e hm)
                · intro j hj hne pg
                  cases hj
                  exact absurd htle hne
                · intro j hj hne pg
                  cases hj
                  exact absurd hcne hne
              · simp only [hl2] at h
                rcases hn2 : (internIssue st2.proj i2).2.data.number with _ | n
                · simp only [hn2] at h
                  subst h
                  simp only [resState] at hst
                  cases hst
                  refine ⟨d1.trans c1, fun k hk => (d2 k hk).trans (c2 k hk),
                    t1 ++ t2, by rw [ht2, ht1, List.append_assoc], ?_, by simp, ?_, ?_⟩
                  · intro e he
                    rcases List.mem_append.1 he with hm | hm
                    · exact visit_of_commitsReqFor num e (hev1 e hm)
                    · exact visit_of_timelineReqFor num e (hev2 e hm)
                  · intro j hj hne pg
                    cases hj
                    exact absurd htle hne
                  · intro j hj hne pg
                    cases hj
                    exact absurd hcne hne
                · simp only [hn2] at h
                  subst h
                  simp only [resState] at hst
                  cases hst
                  have hsh := internIssue_shell st2.proj i2
                  refine ⟨(congrArg (fun s => s.2.2.1) hsh).trans (d1.trans c1),
                    fun k hk => ?_,
                    (t1 ++ t2) ++ [Event.saveIssue n], ?_, ?_, by simp, ?_, ?_⟩
                  · show mlookup (minsert (internIssue st2.proj i2).1.issues num
                      (internIssue st2.proj i2).2) k = _
                    rw [mlookup_minsert_of_ne _ _ hk, internIssue_issues]
                    exact (d2 k hk).trans (c2 k hk)
                  · show st2.trace ++ [Event.saveIssue n] = _
                    rw [ht2, ht1]
                    simp [List.append_assoc]
                  · intro e he
                    rcases List.mem_append.1 he with hm | hm
                    · rcases List.mem_append.1 hm with hm' | hm'
                      · exact visit_of_commitsReqFor num e (hev1 e hm')
                      · exact visit_of_timelineReqFor num e (hev2 e hm')
                    · rcases List.mem_singleton.1 hm with rfl
                      rfl
                  · intro j hj hne pg
                    cases hj
                    exact absurd htle hne
                  · intro j hj hne pg
                    cases hj
                    exact absurd hcne hne
            | fatal stf =>
              rw [hrT] at h
              simp only [bindRes] at h
              subst h
              simp only [resState] at hst
              cases hst
              obtain ⟨d1, d2, t2, ht2, hev2⟩ :=
                timelineLoop_inv c num fuel 1 st1 st' (by rw [hrT]; rfl)
              refine ⟨d1.trans c1, fun k hk => (d2 k hk).trans (c2 k hk),
                t1 ++ t2, by rw [ht2, ht1, List.append_assoc], ?_, ?_, ?_, ?_⟩
              · intro e he
                rcases List.mem_append.1 he with hm | hm
                · exact visit_of_commitsReqFor num e (hev1 e hm)
                · exact visit_of_timelineReqFor num e (hev2 e hm)
              · intro _ m hm
                rcases List.mem_append.1 hm with hm' | hm'
                · have := hev1 _ hm'
                  simp [isCommitsReqFor] at this
                · have := hev2 _ hm'
                  simp [isTimelineReqFor] at this
              · intro j hj hne pg
                cases hj
                exact absurd htle hne
              · intro j hj hne pg
                cases hj
                exact absurd hcne hne
            | crashed stf =>
              rw [hrT] at h
              simp only [bindRes] at h
              subst h
              simp only [resState] at hst
              cases hst
              obtain ⟨d1, d2, t2, ht2, hev2⟩ :=
                timelineLoop_inv c num fuel 1 st1 st' (by rw [hrT]; rfl)
              refine ⟨d1.trans c1, fun k hk => (d2 k hk).trans (c2 k hk),
                t1 ++ t2, by rw [ht2, ht1, List.append_assoc], ?_, by simp, ?_, ?_⟩
              · intro e he
                rcases List.mem_append.1 he with hm | hm
                · exact visit_of_commitsReqFor num e (hev1 e hm)
                · exact visit_of_timelineReqFor num e (hev2 e hm)
              · intro j hj hne pg
                cases hj
                exact absurd htle hne
              · intro j hj hne pg
                cases hj
                exact absurd hcne hne
            | spin =>
              rw [hrT] at h
              simp only [bindRes] at h
              subst h
              simp [resState] at hst
          · -- timeline already non-empty after commits loop
            rw [if_neg hdoT] at h
            simp only [bindRes] at h
            rw [if_pos (by simp [hdoC])] at h
            rcases hl2 : mlookup st1.proj.issues num with _ | i2
            · rw [hl2] at hl1; cases hl1
            · simp only [hl2] at h
              have hi2 : i2 = i1 := by rw [hl2] at hl1; cases hl1; rfl
              rcases hn2 : (internIssue st1.proj i2).2.data.number with _ | n
              · simp only [hn2] at h
                subst h
                simp only [resState] at hst
                cases hst
                refine ⟨c1, c2, t1, ht1, ?_, by simp, ?_, ?_⟩
                · intro e he
                  exact visit_of_commitsReqFor num e (hev1 e he)
                · intro j hj hne pg hmem
                  have := hev1 _ hmem
                  simp [isCommitsReqFor] at this
                · intro j hj hne pg
                  cases hj
                  exact absurd hcne hne
              · simp only [hn2] at h
                subst h
                simp only [resState] at hst
                cases hst
                have hsh := internIssue_shell st1.proj i2
                refine ⟨(congrArg (fun s => s.2.2.1) hsh).trans c1,
                  fun k hk => ?_, t1 ++ [Event.saveIssue n], ?_, ?_, by simp, ?_, ?_⟩
                · show mlookup (minsert (internIssue st1.proj i2).1.issues num
                    (internIssue st1.proj i2).2) k = _
                  rw [mlookup_minsert_of_ne _ _ hk, internIssue_issues]
                  exact c2 k hk
                · show st1.trace ++ [Event.saveIssue n] = _
                  rw [ht1, List.append_assoc]
                · intro e he
                  rcases List.mem_append.1 he with hm | hm
                  · exact visit_of_commitsReqFor num e (hev1 e hm)
                  · rcases List.mem_singleton.1 hm with rfl
                    rfl
                · intro j hj hne pg hmem
                  rcases List.mem_append.1 hmem with hm | hm
                  · have := hev1 _ hm
                    simp [isCommitsReqFor] at this
                  · simp at hm
                · intro j hj hne pg
                  cases hj
                  exact absurd hcne hne
      | fatal stf =>
        rw [hrC] at h
        simp only [bindRes] at h
        subst h
        simp only [resState] at hst
        cases hst
        obtain ⟨⟨c1, c2, t1, ht1, hev1⟩, _⟩ :=
          commitsLoop_inv c num fuel 1 st st' (by rw [hrC]; rfl)
        refine ⟨c1, c2, t1, ht1, ?_, ?_, ?_, ?_⟩
        · intro e he
          exact visit_of_commitsReqFor num e (hev1 e he)
        · intro _ m hm
          have := hev1 _ hm
          simp [isCommitsReqFor] at this
        · intro j hj hne pg hmem
          have := hev1 _ hmem
          simp [isCommitsReqFor] at this
        · intro j hj hne pg
          cases hj
          exact absurd hcne hne
      | crashed stf =>
        rw [hrC] at h
        simp only [bindRes] at h
        subst h
        simp only [resState] at hst
        cases hst
        obtain ⟨⟨c1, c2, t1, ht1, hev1⟩, _⟩ :=
          commitsLoop_inv c num fuel 1 st st' (by rw [hrC]; rfl)
        refine ⟨c1, c2, t1, ht1, ?_, by simp, ?_, ?_⟩
        · intro e he
          exact visit_of_commitsReqFor num e (hev1 e he)
        · intro j hj hne pg hmem
          have := hev1 _ hmem
          simp [isCommitsReqFor] at this
        · intro j hj hne pg
          cases hj
          exact absurd hcne hne
      | spin =>
        rw [hrC] at h
        simp only [bindRes] at h
        subst h
        simp [resState] at hst
    · -- no commits loop
      rw [if_neg hdoC] at h
      simp only [bindRes] at h
      simp only [hl0] at h
      have hdoC' : (i0.data.pullRequestLinks && i0.commits.isEmpty) = false := by
        rwa [Bool.not_eq_true] at hdoC
      by_cases hdoT : i0.timeline.isEmpty = true
      · have htle : i0.timeline = [] := List.isEmpty_iff.1 hdoT
        rw [if_pos hdoT] at h
        cases hrT : timelineLoop c num fuel 1 st with
        | ok st2 =>
          rw [hrT] at h
          simp only [bindRes] at h
          obtain ⟨d1, d2, t2, ht2, hev2⟩ :=
            timelineLoop_inv c num fuel 1 st st2 (by rw [hrT]; rfl)
          rw [if_pos (by simp [hdoT])] at h
          rcases hl2 : mlookup st2.proj.issues num with _ | i2
          · simp only [hl2] at h
            subst h
            simp only [resState] at hst
            cases hst
            refine ⟨d1, d2, t2, ht2, ?_, by simp, ?_, ?_⟩
            · intro e he
              exact visit_of_timelineReqFor num e (hev2 e he)
            · intro j hj hne pg
              cases hj
              exact absurd htle hne
            · intro j hj hne pg hmem
              have := hev2 _ hmem
              simp [isTimelineReqFor] at this
          · simp only [hl2] at h
            rcases hn2 : (internIssue st2.proj i2).2.data.number with _ | n
            · simp only [hn2] at h
              subst h
              simp only [resState] at hst
              cases hst
              refine ⟨d1, d2, t2, ht2, ?_, by simp, ?_, ?_⟩
              · intro e he
                exact visit_of_timelineReqFor num e (hev2 e he)
              · intro j hj hne pg
                cases hj
                exact absurd htle hne
              · intro j hj hne pg hmem
                have := hev2 _ hmem
                simp [isTimelineReqFor] at this
            · simp only [hn2] at h
              subst h
              simp only [resState] at hst
              cases hst
              have hsh := internIssue_shell st2.proj i2
              refine ⟨(congrArg (fun s => s.2.2.1) hsh).trans d1,
                fun k hk => ?_, t2 ++ [Event.saveIssue n], ?_, ?_, by simp, ?_, ?_⟩
              · show mlookup (minsert (internIssue st2.proj i2).1.issues num
                  (internIssue st2.proj i2).2) k = _
                rw [mlookup_minsert_of_ne _ _ hk, internIssue_issues]
                exact d2 k hk
              · show st2.trace ++ [Event.saveIssue n] = _
                rw [ht2, List.append_assoc]
              · intro e he
                rcases List.mem_append.1 he with hm | hm
                · exact visit_of_timelineReqFor num e (hev2 e hm)
                · rcases List.mem_singleton.1 hm with rfl
                  rfl
              · intro j hj hne pg
                cases hj
                exact absurd htle hne
              · intro j hj hne pg hmem
                rcases List.mem_append.1 hmem with hm | hm
                · have := hev2 _ hm
                  simp [isTimelineReqFor] at this
                · simp at hm
        | fatal stf =>
          rw [hrT] at h
          simp only [bindRes] at h
          subst h
          simp only [resState] at hst
          cases hst
          obtain ⟨d1, d2, t2, ht2, hev2⟩ :=
            timelineLoop_inv c num fuel 1 st st' (by rw [hrT]; rfl)
          refine ⟨d1, d2, t2, ht2, ?_, ?_, ?_, ?_⟩
          · intro e he
            exact visit_of_timelineReqFor num e (hev2 e he)
          · intro _ m hm
            have := hev2 _ hm
            simp [isTimelineReqFor] at this
          · intro j hj hne pg
            cases hj
            exact absurd htle hne
          · intro j hj hne pg hmem
            have := hev2 _ hmem
            simp [isTimelineReqFor] at this
        | crashed stf =>
          rw [hrT] at h
          simp only [bindRes] at h
          subst h
          simp only [resState] at hst
          cases hst
          obtain ⟨d1, d2, t2, ht2, hev2⟩ :=
            timelineLoop_inv c num fuel 1 st st' (by rw [hrT]; rfl)
          refine ⟨d1, d2, t2, ht2, ?_, by simp, ?_, ?_⟩
          · intro e he
            exact visit_of_timelineReqFor num e (hev2 e he)
          · intro j hj hne pg
            cases hj
            exact absurd htle hne
          · intro j hj hne pg hmem
            have := hev2 _ hmem
            simp [isTimelineReqFor] at this
        | spin =>
          rw [hrT] at h
          simp only [bindRes] at h
          subst h
          simp [resState] at hst
      · -- nothing to do: no loop entered, not changed
        rw [if_neg hdoT] at h
        simp only [bindRes] at h
        rw [if_neg (by simp [hdoC', hdoT])] at h
        subst h
        simp only [resState] at hst
        cases hst
        exact ⟨rfl, fun _ _ => rfl, [], by simp, by simp, by simp, by simp, by simp⟩

theorem isBEvent_of_visit (m : Int) (e : Event) (h : isVisitEvent m e = true) :
    isBEvent e = true := by
  cases e <;> simp [isVisitEvent, isBEvent] at h ⊢

theorem visit_timelineReq_eq {m n : Int} {pg : Nat}
    (h : isVisitEvent m (Event.timelineReq n pg) = true) : n = m := by
  simpa [isVisitEvent] using h

theorem visit_commitsReq_eq {m n : Int} {pg : Nat}
    (h : isVisitEvent m (Event.commitsReq n pg) = true) : n = m := by
  simpa [isVisitEvent] using h

/-- Phase B over a list of issue numbers: the watermark is untouched,
unvisited issues are untouched, and every emitted event belongs to some
visited issue's visit. -/
theorem phaseBList_master (c : Client) (fuel : Nat) :
    ∀ (v : List Int) (st : RState) (r : Res) (st' : RState),
      phaseBList c fuel v st = r → resState r = some st' →
      st'.proj.refreshedAt = st.proj.refreshedAt ∧
      (∀ k, k ∉ v → mlookup st'.proj.issues k = mlookup st.proj.issues k) ∧
      ∃ t, st'.trace = st.trace ++ t ∧
        ∀ e ∈ t, ∃ m, m ∈ v ∧ isVisitEvent m e = true := by
  intro v
  induction v with
  | nil =>
    intro st r st' h hst
    simp only [phaseBList] at h
    subst h
    simp only [resState] at hst
    cases hst
    exact ⟨rfl, fun _ _ => rfl, [], by simp, by simp⟩
  | cons m rest ih =>
    intro st r st' h hst
    simp only [phaseBList] at h
    cases hB : phaseBIssue c fuel m st with
    | ok st1 =>
      rw [hB] at h
      simp only [bindRes] at h
      obtain ⟨a1, a2, t1, ht1, hev1, _, _, _⟩ :=
        phaseBIssue_master c fuel m st _ hB st1 rfl
      obtain ⟨b1, b2, t2, ht2, hev2⟩ := ih st1 r st' h hst
      refine ⟨b1.trans a1, fun k hk => ?_, t1 ++ t2, ?_, ?_⟩
      · have hkm : k ≠ m := by intro e; subst e; exact hk (List.mem_cons_self _ _)
        have hkr : k ∉ rest := fun hr => hk (List.mem_cons_of_mem _ hr)
        exact (b2 k hkr).trans (a2 k hkm)
      · rw [ht2, ht1, List.append_assoc]
      · intro e he
        rcases List.mem_append.1 he with hm | hm
        · exact ⟨m, List.mem_cons_self _ _, hev1 e hm⟩
        · obtain ⟨m', hm', he'⟩ := hev2 e hm
          exact ⟨m', List.mem_cons_of_mem _ hm', he'⟩
    | fatal stf =>
      rw [hB] at h
      simp only [bindRes] at h
      subst h
      simp only [resState] at hst
      cases hst
      obtain ⟨a1, a2, t1, ht1, hev1, _, _, _⟩ :=
        phaseBIssue_master c fuel m st _ hB st' rfl
      exact ⟨a1, fun k hk => a2 k (fun e => hk (e ▸ List.mem_cons_self _ _)), t1, ht1,
        fun e he => ⟨m, List.mem_cons_self _ _, hev1 e he⟩⟩
    | crashed stf =>
      rw [hB] at h
      simp only [bindRes] at h
      subst h
      simp only [resState] at hst
      cases hst
      obtain ⟨a1, a2, t1, ht1, hev1, _, _, _⟩ :=
        phaseBIssue_master c fuel m st _ hB st' rfl
      exact ⟨a1, fun k hk => a2 k (fun e => hk (e ▸ List.mem_cons_self _ _)), t1, ht1,
        fun e he => ⟨m, List.mem_cons_self _ _, hev1 e he⟩⟩
    | spin =>
      rw [hB] at h
      simp only [bindRes] at h
      subst h
      simp [resState] at hst

/-- The backfill skip rule along a whole Phase B run: an issue whose
Timeline (resp. Commits) is already non-empty when Phase B starts receives
no timeline (resp. commit) listing request anywhere in the run. -/
theorem phaseBList_skip (c : Client) (fuel : Nat) :
    ∀ (v : List Int) (st : RState) (r : Res) (st' : RState),
      v.Nodup →
      phaseBList c fuel v st = r → resState r = some st' →
      ∀ n i, mlookup st.proj.issues n = some i →
      ∃ t, st'.trace = st.trace ++ t ∧
        (i.timeline ≠ [] → ∀ pg, Event.timelineReq n pg ∉ t) ∧
        (i.commits ≠ [] → ∀ pg, Event.commitsReq n pg ∉ t) := by
  intro v
  induction v with
  | nil =>
    intro st r st' _ h hst n i hi
    simp only [phaseBList] at h
    subst h
    simp only [resState] at hst
    cases hst
    exact ⟨[], by simp, by simp, by simp⟩
  | cons m rest ih =>
    intro st r st' hnd h hst n i hi
    simp only [List.nodup_cons] at hnd
    simp only [phaseBList] at h
    cases hB : phaseBIssue c fuel m st with
    | ok st1 =>
      rw [hB] at h
      simp only [bindRes] at h
      obtain ⟨a1, a2, t1, ht1, hev1, _, hskipT, hskipC⟩ :=
        phaseBIssue_master c fuel m st _ hB st1 rfl
      by_cases hnm : n = m
      · subst hnm
        obtain ⟨b1, b2, t2, ht2, hev2⟩ := phaseBList_master c fuel rest st1 r st' h hst
        refine ⟨t1 ++ t2, by rw [ht2, ht1, List.append_assoc], ?_, ?_⟩
        · intro hne pg hmem
          rcases List.mem_append.1 hmem with hm | hm
          · exact hskipT i hi hne pg hm
          · obtain ⟨m', hm', he'⟩ := hev2 _ hm
            exact hnd.1 (visit_timelineReq_eq he' ▸ hm')
        · intro hne pg hmem
          rcases List.mem_append.1 hmem with hm | hm
          · exact hskipC i hi hne pg hm
          · obtain ⟨m', hm', he'⟩ := hev2 _ hm
            exact hnd.1 (visit_commitsReq_eq he' ▸ hm')
      · have hi1 : mlookup st1.proj.issues n = some i := (a2 n hnm).trans hi
        obtain ⟨t2, ht2, hT2, hC2⟩ := ih st1 r st' hnd.2 h hst n i hi1
        refine ⟨t1 ++ t2, by rw [ht2, ht1, List.append_assoc], ?_, ?_⟩
        · intro hne pg hmem
          rcases List.mem_append.1 hmem with hm | hm
          · exact hnm (visit_timelineReq_eq (hev1 _ hm))
          · exact hT2 hne pg hm
        · intro hne pg hmem
          rcases List.mem_append.1 hmem with hm | hm
          · exact hnm (visit_commitsReq_eq (hev1 _ hm))
          · exact hC2 hne pg hm
    | fatal stf =>
      rw [hB] at h
      simp only [bindRes] at h
      subst h
      simp only [resState] at hst
      cases hst
      obtain ⟨a1, a2, t1, ht1, hev1, _, hskipT, hskipC⟩ :=
        phaseBIssue_master c fuel m st _ hB st' rfl
      by_cases hnm : n = m
      · subst hnm
        exact ⟨t1, ht1, fun hne pg => hskipT i hi hne pg, fun hne pg => hskipC i hi hne pg⟩
      · refine ⟨t1, ht1, ?_, ?_⟩
        · intro _ pg hmem
          exact hnm (visit_timelineReq_eq (hev1 _ hmem))
        · intro _ pg hmem
          exact hnm (visit_commitsReq_eq (hev1 _ hmem))
    | crashed stf =>
      rw [hB] at h
      simp only [bindRes] at h
      subst h
      simp only [resState] at hst
      cases hst
      obtain ⟨a1, a2, t1, ht1, hev1, _, hskipT, hskipC⟩ :=
        phaseBIssue_master c fuel m st _ hB st' rfl
      by_cases hnm : n = m
      · subst hnm
        exact ⟨t1, ht1, fun hne pg => hskipT i hi hne pg, fun hne pg => hskipC i hi hne pg⟩
      · refine ⟨t1, ht1, ?_, ?_⟩
        · intro _ pg hmem
          exact hnm (visit_timelineReq_eq (hev1 _ hmem))
        · intro _ pg hmem
          exact hnm (visit_commitsReq_eq (hev1 _ hmem))
    | spin =>
      rw [hB] at h
      simp only [bindRes] at h
      subst h
      simp [resState] at hst

/-- Phase A never aborts the run: no outcome of the issue-listing loop is
`log.Fatal`. -/
theorem phaseALoop_ne_fatal (c : Client) :
    ∀ (fuel page : Nat) (st stf : RState), phaseALoop c fuel page st ≠ Res.fatal stf := by
  intro fuel
  induction fuel with
  | zero => intro page st stf h; simp [phaseALoop] at h
  | succ fuel ih =>
    intro page st stf h
    rcases hc : c.listIssues st.tick page with e | pr
    · simp only [phaseALoop, hc] at h
      exact ih page _ stf h
    · obtain ⟨items, next⟩ := pr
      simp only [phaseALoop, hc] at h
      rcases hs : storeListed st.proj items with _ | p1
      · simp only [hs] at h
        simp at h
      · simp only [hs] at h
        by_cases hlt : next < page
        · rw [if_pos hlt] at h
          simp at h
        · rw [if_neg hlt] at h
          exact ih next _ stf h

/-- A completed Phase A emitted only listing requests and sleeps. -/
theorem phaseALoop_trace (c : Client) :
    ∀ (fuel page : Nat) (st st' : RState), phaseALoop c fuel page st = Res.ok st' →
      ∃ t, st'.trace = st.trace ++ t ∧ ∀ e ∈ t, isAEvent e = true := by
  intro fuel
  induction fuel with
  | zero => intro page st st' h; simp [phaseALoop] at h
  | succ fuel ih =>
    intro page st st' h
    rcases hc : c.listIssues st.tick page with e | pr
    · simp only [phaseALoop, hc] at h
      obtain ⟨t, ht, hev⟩ := ih page _ st' h
      refine ⟨Event.listIssuesReq page :: Event.sleep 5 :: t, ?_, ?_⟩
      · rw [ht]
        simp
      · intro e he
        rcases List.mem_cons.1 he with rfl | he
        · rfl
        · rcases List.mem_cons.1 he with rfl | he
          · rfl
          · exact hev e he
    · obtain ⟨items, next⟩ := pr
      simp only [phaseALoop, hc] at h
      rcases hs : storeListed st.proj items with _ | p1
      · simp only [hs] at h
        simp at h
      · simp only [hs] at h
        by_cases hlt : next < page
        · rw [if_pos hlt] at h
          cases h
          exact ⟨[Event.listIssuesReq page], rfl, by simp [isAEvent]⟩
        · rw [if_neg hlt] at h
          obtain ⟨t, ht, hev⟩ := ih next _ st' h
          refine ⟨Event.listIssuesReq page :: t, ?_, ?_⟩
          · rw [ht]
            simp
          · intro e he
            rcases List.mem_cons.1 he with rfl | he
            · rfl
            · exact hev e he

/-! ### Sorting facts for the Phase B visit order -/

theorem mem_insertAsc (x a : Int) : ∀ l : List Int, a ∈ insertAsc x l ↔ a = x ∨ a ∈ l := by
  intro l
  induction l with
  | nil => simp [insertAsc]
  | cons y ys ih =>
    by_cases hxy : x ≤ y
    · simp [insertAsc, hxy]
    · simp only [insertAsc, if_neg hxy, List.mem_cons, ih]
      tauto

theorem pairwise_insertAsc (x : Int) :
    ∀ l : List Int, l.Pairwise (· ≤ ·) → (insertAsc x l).Pairwise (· ≤ ·) := by
  intro l
  induction l with
  | nil => intro _; simp [insertAsc]
  | cons y ys ih =>
    intro h
    rw [List.pairwise_cons] at h
    by_cases hxy : x ≤ y
    · simp only [insertAsc, if_pos hxy, List.pairwise_cons]
      refine ⟨?_, h⟩
      intro b hb
      rcases List.mem_cons.1 hb with rfl | hb
      · exact hxy
      · exact hxy.trans (h.1 b hb)
    · simp only [insertAsc, if_neg hxy, List.pairwise_cons]
      refine ⟨?_, ih h.2⟩
      intro b hb
      rcases (mem_insertAsc x b ys).1 hb with rfl | hb
      · omega
      · exact h.1 b hb

theorem nodup_insertAsc (x : Int) :
    ∀ l : List Int, l.Nodup → x ∉ l → (insertAsc x l).Nodup := by
  intro l
  induction l with
  | nil => intro _ _; simp [insertAsc]
  | cons y ys ih =>
    intro hnd hx
    rw [List.nodup_cons] at hnd
    by_cases hxy : x ≤ y
    · simp only [insertAsc, if_pos hxy, List.nodup_cons]
      exact ⟨hx, hnd⟩
    · simp only [insertAsc, if_neg hxy, List.nodup_cons]
      refine ⟨?_, ih hnd.2 (fun hm => hx (List.mem_cons_of_mem _ hm))⟩
      intro hmem
      rcases (mem_insertAsc x y ys).1 hmem with rfl | hmem
      · exact hx (List.mem_cons_self _ _)
      · exact hnd.1 hmem

theorem mem_sortInts (a : Int) : ∀ l : List Int, a ∈ sortInts l ↔ a ∈ l := by
  intro l
  induction l with
  | nil => simp [sortInts]
  | cons x xs ih =>
    simp only [sortInts, mem_insertAsc, List.mem_cons, ih]

theorem pairwise_sortInts : ∀ l : List Int, (sortInts l).Pairwise (· ≤ ·) := by
  intro l
  induction l with
  | nil => simp [sortInts]
  | cons x xs ih => exact pairwise_insertAsc x _ ih

theorem nodup_sortInts : ∀ l : List Int, l.Nodup → (sortInts l).Nodup := by
  intro l
  induction l with
  | nil => intro _; simp [sortInts]
  | cons x xs ih =>
    intro h
    rw [List.nodup_cons] at h
    exact nodup_insertAsc x _ (ih h.2) (fun hm => h.1 ((mem_sortInts x xs).1 hm))

/-- C4: Watermark advancement.  When Phase A completes (yielding state
`st1`), its whole trace is listing requests and sleeps; whatever happens
afterwards, the final `RefreshedAt` equals `start` — the wall-clock
reading recorded before the first page request — and the metadata save
sits in the trace immediately after Phase A's events and before every
Phase B fetch. -/
theorem refresh_watermark (c : Client) (start : Int) (fuel : Nat) (p : Project) (st1 : RState)
    (hA : phaseALoop c fuel 1 ⟨p, 0, []⟩ = Res.ok st1) :
    (∀ e ∈ st1.trace, isAEvent e = true) ∧
    ∀ st', resState (refresh c start fuel p) = some st' →
      st'.proj.refreshedAt = start ∧
      ∃ tB, st'.trace = st1.trace ++ Event.saveMeta :: tB ∧ ∀ e ∈ tB, isBEvent e = true := by
  constructor
  · obtain ⟨t, ht, hev⟩ := phaseALoop_trace c fuel 1 ⟨p, 0, []⟩ st1 hA
    intro e he
    apply hev
    rw [ht] at he
    simpa using he
  · intro st' hst
    unfold refresh at hst
    rw [hA] at hst
    simp only [bindRes] at hst
    obtain ⟨b1, _, t, ht, hev⟩ :=
      phaseBList_master c fuel (sortedIssues st1.proj).reverse _ _ st' rfl hst
    refine ⟨b1, t, ?_, ?_⟩
    · rw [ht]
      simp
    · intro e he
      obtain ⟨m, _, hv⟩ := hev e he
      exact isBEvent_of_visit m e hv

/-- Witness for `refresh_watermark` against a one-page, empty listing. -/
theorem refresh_watermark_witness :
    ((⟨⟨"x", "y", 42, [], [], [], []⟩, 1,
        [Event.listIssuesReq 1, Event.saveMeta]⟩ : RState) : RState).proj.refreshedAt = 42 ∧
    resState (refresh cW 42 3 P0e) =
      some ⟨⟨"x", "y", 42, [], [], [], []⟩, 1, [Event.listIssuesReq 1, Event.saveMeta]⟩ := by
  constructor
  · exact ((refresh_watermark cW 42 3 P0e ⟨P0e, 1, [Event.listIssuesReq 1]⟩ (by decide)).2
      ⟨⟨"x", "y", 42, [], [], [], []⟩, 1, [Event.listIssuesReq 1, Event.saveMeta]⟩
      (by decide)).1
  · decide

/-- C5: Backfill skip rule and visit order.  Phase B's visit order — the
reverse of `sortedIssues` — is strictly descending and enumerates every
issue number exactly once; and along any Phase B run over distinct
numbers, an issue whose Timeline is non-empty at the start of Phase B gets
no timeline-listing request in the whole run, and a pull-request issue
whose Commits are non-empty gets no commit-listing request. -/
theorem phaseB_skip_and_order :
    (∀ p : Project, (mkeys p.issues).Nodup →
      List.Pairwise (· > ·) (sortedIssues p).reverse ∧
      (sortedIssues p).reverse.Nodup ∧
      (∀ n, n ∈ (sortedIssues p).reverse ↔ n ∈ mkeys p.issues)) ∧
    (∀ (c : Client) (fuel : Nat) (v : List Int) (st : RState) (r : Res) (st' : RState),
      v.Nodup → phaseBList c fuel v st = r → resState r = some st' →
      ∀ n i, mlookup st.proj.issues n = some i →
      ∃ t, st'.trace = st.trace ++ t ∧
        (i.timeline ≠ [] → ∀ pg, Event.timelineReq n pg ∉ t) ∧
        (i.data.pullRequestLinks = true → i.commits ≠ [] →
          ∀ pg, Event.commitsReq n pg ∉ t)) := by
  constructor
  · intro p hnd
    have hpw : (sortInts (mkeys p.issues)).Pairwise (· ≤ ·) := pairwise_sortInts _
    have hnd' : (sortInts (mkeys p.issues)).Nodup := nodup_sortInts _ hnd
    have hlt : (sortInts (mkeys p.issues)).Pairwise (· < ·) := by
      have := hpw.and hnd'
      exact this.imp (fun h => lt_of_le_of_ne h.1 h.2)
    refine ⟨?_, ?_, ?_⟩
    · rw [List.pairwise_reverse]
      exact hlt
    · exact List.nodup_reverse.2 hnd'
    · intro n
      rw [List.mem_reverse]
      exact mem_sortInts n _
  · intro c fuel v st r st' hnd h hst n i hi
    obtain ⟨t, ht, hT, hC⟩ := phaseBList_skip c fuel v st r st' hnd h hst n i hi
    exact ⟨t, ht, hT, fun _ => hC⟩

/-- An issue with a non-empty timeline, not a PR. -/
def tlIssue : Issue :=
  ⟨⟨some 7, none, none, none, none, [], none, none, false, none, none⟩,
   [⟨none, none, none⟩], []⟩

/-- A store holding `tlIssue` under number 7. -/
def PW : Project := ⟨"x", "y", 0, [(7, tlIssue)], [], [], []⟩

/-- Witness for `phaseB_skip_and_order`: concrete descending order over a
store, and a concrete run that issues no timeline request for the
already-backfilled issue. -/
theorem phaseB_skip_and_order_witness :
    List.Pairwise (· > ·) (sortedIssues ⟨"o", "r", 0,
      [(3, tlIssue), (9, tlIssue)], [], [], []⟩).reverse ∧
    Event.timelineReq 7 1 ∉ (⟨PW, 0, []⟩ : RState).trace := by
  constructor
  · exact (phaseB_skip_and_order.1 ⟨"o", "r", 0, [(3, tlIssue), (9, tlIssue)], [], [], []⟩
      (by decide)).1
  · obtain ⟨t, ht, hT, hC⟩ := phaseB_skip_and_order.2 cW 1 [7] ⟨PW, 0, []⟩
      (phaseBList cW 1 [7] ⟨PW, 0, []⟩) ⟨PW, 0, []⟩ (by decide) rfl (by decide)
      7 tlIssue (by decide)
    intro hmem
    simp at hmem

/-- C6: Error-handling asymmetry between phases.  Phase A never produces a
fatal outcome; on a fetch error it sleeps 5 seconds and retries the very
same page.  In Phase B a fetch error on either endpoint is immediately
fatal — no sleep, no retry — the fatal visit is the end of the whole run,
the in-flight issue is never saved, and no Phase B trace ever contains a
sleep. -/
theorem error_asymmetry :
    (∀ (c : Client) (fuel page : Nat) (st stf : RState),
      phaseALoop c fuel page st ≠ Res.fatal stf) ∧
    (∀ (c : Client) (fuel page : Nat) (st : RState),
      c.listIssues st.tick page = Except.error () →
      phaseALoop c (fuel + 1) page st =
        phaseALoop c fuel page
          ⟨st.proj, st.tick + 1, st.trace ++ [Event.listIssuesReq page, Event.sleep 5]⟩) ∧
    (∀ (c : Client) (num : Int) (fuel page : Nat) (st : RState),
      c.listCommits st.tick num page = Except.error () →
      commitsLoop c num (fuel + 1) page st =
        Res.fatal ⟨st.proj, st.tick + 1, st.trace ++ [Event.commitsReq num page]⟩) ∧
    (∀ (c : Client) (num : Int) (fuel page : Nat) (st : RState),
      c.listTimeline st.tick num page = Except.error () →
      timelineLoop c num (fuel + 1) page st =
        Res.fatal ⟨st.proj, st.tick + 1, st.trace ++ [Event.timelineReq num page]⟩) ∧
    (∀ (c : Client) (fuel : Nat) (num : Int) (rest : List Int) (st stf : RState),
      phaseBIssue c fuel num st = Res.fatal stf →
      phaseBList c fuel (num :: rest) st = Res.fatal stf) ∧
    (∀ (c : Client) (fuel : Nat) (num : Int) (st stf : RState),
      phaseBIssue c fuel num st = Res.fatal stf →
      ∃ t, stf.trace = st.trace ++ t ∧ ∀ m, Event.saveIssue m ∉ t) ∧
    (∀ (c : Client) (fuel : Nat) (v : List Int) (st : RState) (r : Res) (st' : RState),
      phaseBList c fuel v st = r → resState r = some st' →
      ∃ t, st'.trace = st.trace ++ t ∧ ∀ s, Event.sleep s ∉ t) := by
  refine ⟨phaseALoop_ne_fatal, ?_, ?_, ?_, ?_, ?_, ?_⟩
  · intro c fuel page st h
    simp only [phaseALoop, h]
  · intro c num fuel page st h
    simp only [commitsLoop, h]
  · intro c num fuel page st h
    simp only [timelineLoop, h]
  · intro c fuel num rest st stf h
    simp only [phaseBList, h, bindRes]
  · intro c fuel num st stf h
    obtain ⟨_, _, t, ht, _, hnos, _, _⟩ :=
      phaseBIssue_master c fuel num st _ h stf rfl
    exact ⟨t, ht, hnos rfl⟩
  · intro c fuel v st r st' h hst
    obtain ⟨_, _, t, ht, hev⟩ := phaseBList_master c fuel v st r st' h hst
    refine ⟨t, ht, ?_⟩
    intro s hmem
    obtain ⟨m, _, hv⟩ := hev _ hmem
    simp [isVisitEvent] at hv

/-- All three endpoints always fail. -/
def errClient : Client :=
  ⟨fun _ _ => .error (), fun _ _ _ => .error (), fun _ _ _ => .error ()⟩

/-- A pull-request issue with no cached commits, under number 7. -/
def prIssue : Issue :=
  ⟨⟨some 7, none, none, none, none, [], none, none, true, none, none⟩, [], []⟩

/-- A store holding `prIssue` under number 7. -/
def PPR : Project := ⟨"x", "y", 0, [(7, prIssue)], [], [], []⟩

/-- Witness for `error_asymmetry`: a failing listing sleeps 5 seconds and
retries page 1; a failing commit listing is immediately fatal; that fatal
visit aborts the whole Phase B run with nothing saved. -/
theorem error_asymmetry_witness :
    phaseALoop errClient 1 1 ⟨P0e, 0, []⟩ =
      phaseALoop errClient 0 1 ⟨P0e, 1, [Event.listIssuesReq 1, Event.sleep 5]⟩ ∧
    commitsLoop errClient 7 1 1 ⟨PPR, 0, []⟩ =
      Res.fatal ⟨PPR, 1, [Event.commitsReq 7 1]⟩ ∧
    phaseBList errClient 1 [7] ⟨PPR, 0, []⟩ =
      Res.fatal ⟨PPR, 1, [Event.commitsReq 7 1]⟩ :=
  ⟨error_asymmetry.2.1 errClient 0 1 ⟨P0e, 0, []⟩ rfl,
   error_asymmetry.2.2.1 errClient 7 0 1 ⟨PPR, 0, []⟩ rfl,
   error_asymmetry.2.2.2.2.1 errClient 1 7 [] ⟨PPR, 0, []⟩
     ⟨PPR, 1, [Event.commitsReq 7 1]⟩ (by decide)⟩

end RP
